import Mathlib

/-!
Verification of the pkgbuild parsing library (single-file Rust crate,
src/lib.rs) against its natural-language specification.

The development shallowly embeds the relevant Rust functions over
List Char (Rust str and byte slices; all data handled by the claims is
ASCII, where char-wise and byte-wise processing coincide).  Definitions
mirror the source; theorems settle the frozen claims.
-/

namespace PkgbuildRs

/-- Decidable equality of Except results, for evaluating the embedded
fallible functions on concrete inputs. -/
instance {ε α : Type} [DecidableEq ε] [DecidableEq α] :
    DecidableEq (Except ε α) := fun x y =>
  match x, y with
  | .ok a, .ok b =>
    if h : a = b then isTrue (by rw [h])
    else isFalse (by intro hh; cases hh; exact h rfl)
  | .ok _, .error _ => isFalse (by intro hh; cases hh)
  | .error _, .ok _ => isFalse (by intro hh; cases hh)
  | .error e, .error f =>
    if h : e = f then isTrue (by rw [h])
    else isFalse (by intro hh; cases hh; exact h rfl)

/-- Convenience: the character list of a string literal. -/
def str (s : String) : List Char := s.toList

/-! ## String utilities mirroring Rust str methods -/

/-- Rust str.split_once(char): split at the first occurrence of a
character, returning the parts before and after it. -/
def splitOnceChar (c : Char) : List Char → Option (List Char × List Char)
  | [] => none
  | x :: t =>
    if x = c then some ([], t)
    else
      match splitOnceChar c t with
      | some (a, b) => some (x :: a, b)
      | none => none

/-- Rust str.rsplit_once(char): split at the last occurrence. -/
def rsplitOnceChar (c : Char) (s : List Char) :
    Option (List Char × List Char) :=
  match splitOnceChar c s.reverse with
  | some (a, b) => some (b.reverse, a.reverse)
  | none => none

/-- Whether pat is a prefix of s (Rust str.starts_with). -/
def startsWith : List Char → List Char → Bool
  | [], _ => true
  | _ :: _, [] => false
  | p :: ps, x :: xs => p = x && startsWith ps xs

/-- Rust str.split_once(&str): split at the first occurrence of a
substring pattern. -/
def splitOnceSub (pat : List Char) : List Char → Option (List Char × List Char)
  | [] => if pat.isEmpty then some ([], []) else none
  | x :: t =>
    if startsWith pat (x :: t) then some ([], (x :: t).drop pat.length)
    else
      match splitOnceSub pat t with
      | some (a, b) => some (x :: a, b)
      | none => none

/-- Rust str.contains(&str): substring containment. -/
def containsSub (pat s : List Char) : Bool :=
  (splitOnceSub pat s).isSome

/-- Rust str.strip_suffix. -/
def stripSuffix (suf s : List Char) : Option (List Char) :=
  if startsWith suf.reverse s.reverse then
    some (s.take (s.length - suf.length))
  else none

/-- Rust slice split / str split on a predicate: always yields one more
segment than there are separators, including empty segments. -/
def splitPred (p : Char → Bool) : List Char → List (List Char)
  | [] => [[]]
  | c :: t =>
    if p c then [] :: splitPred p t
    else
      match splitPred p t with
      | s :: rest => (c :: s) :: rest
      | [] => [[c]]

/-- Lexicographic comparison of char lists (Rust str Ord, which for the
ASCII data handled here agrees with byte-wise comparison). -/
def lexCmp : List Char → List Char → Ordering
  | [], [] => .eq
  | [], _ :: _ => .lt
  | _ :: _, [] => .gt
  | a :: as_, b :: bs =>
    match compare a b with
    | .eq => lexCmp as_ bs
    | o => o

/-! ## The vercmp version comparison engine (lib.rs, fn vercmp) -/

/-- Result of one run of the inner while loop of vercmp: either an early
return carrying the Option Ordering that the Rust function returns, or
fall-through to the next pair of segments. -/
inductive SegStep where
  | done (o : Option Ordering)
  | next
deriving DecidableEq

/-- Code after the inner while loop of vercmp: the None branch guarded by
the non-emptiness re-check of the first segment, the early Less return
when the second segment has leftovers, else continue the outer loop. -/
def afterSubRuns (seg1 seg2 : List Char) : SegStep :=
  if !seg1.isEmpty then .done none
  else if !seg2.isEmpty then .done (some .lt)
  else .next

/-- Inner while loop of vercmp over one pair of segments, structured on
explicit fuel so that the definition is structurally recursive (each
iteration consumes at least one leading character of the first segment,
so fuel equal to its length suffices; see segLoop_fuel). -/
def segRun : Nat → List Char → List Char → SegStep
  | _, [], seg2 => afterSubRuns [] seg2
  | 0, _ :: _, _ => .done none
  | fuel + 1, c :: t, seg2 =>
    let isDigit := c.isDigit
    let current1 := (c :: t).takeWhile (fun x => x.isDigit == isDigit)
    let rest1 := (c :: t).dropWhile (fun x => x.isDigit == isDigit)
    let current2 := seg2.takeWhile (fun x => x.isDigit == isDigit)
    let rest2 := seg2.dropWhile (fun x => x.isDigit == isDigit)
    if isDigit then
      if current2.isEmpty then .done (some .gt)
      else
        let c1 := current1.dropWhile (fun x => x == '0')
        let c2 := current2.dropWhile (fun x => x == '0')
        match compare c1.length c2.length with
        | .eq =>
          match lexCmp c1 c2 with
          | .eq => segRun fuel rest1 rest2
          | o => .done (some o)
        | o => .done (some o)
    else
      if current2.isEmpty then .done (some .lt)
      else
        match lexCmp current1 current2 with
        | .eq => segRun fuel rest1 rest2
        | o => .done (some o)

/-- Inner while loop of vercmp (fuel instantiated at the sufficient
bound). -/
def segLoop (seg1 seg2 : List Char) : SegStep :=
  segRun seg1.length seg1 seg2

/-- Outer loop of vercmp over the two segment sequences. -/
def verLoop : List (List Char) → List (List Char) → Option Ordering
  | [], [] => some .eq
  | [], _ :: _ => some .lt
  | _ :: _, [] => some .gt
  | s1 :: t1, s2 :: t2 =>
    match segLoop s1 s2 with
    | .done o => o
    | .next => verLoop t1 t2

/-- The vercmp re-implementation of rpmvercmp (lib.rs fn vercmp):
segments are separated by non-alphanumeric ASCII bytes and the segment
pairs are compared by alternating digit and letter sub-runs. -/
def vercmp (ver1 ver2 : List Char) : Option Ordering :=
  verLoop (splitPred (fun c => !c.isAlphanum) ver1)
    (splitPred (fun c => !c.isAlphanum) ver2)

/-! ## PlainVersion (lib.rs struct PlainVersion) -/

/-- The plain version triple; any field may be empty. -/
structure PlainVersion where
  epoch : List Char
  pkgver : List Char
  pkgrel : List Char
deriving DecidableEq

/-- Rust From of a str for PlainVersion: epoch before the first colon,
then pkgver and pkgrel split at the last dash. -/
def plainVersionFromStr (value : List Char) : PlainVersion :=
  let ev := match splitOnceChar ':' value with
    | some (epoch, remaining) => (epoch, remaining)
    | none => ([], value)
  match rsplitOnceChar '-' ev.2 with
  | some (pkgver, pkgrel) => ⟨ev.1, pkgver, pkgrel⟩
  | none => ⟨ev.1, ev.2, []⟩

/-- PartialOrd for PlainVersion: epoch with empty coerced to the string
0, then pkgver, then pkgrel only when both sides have one. -/
def pvPartialCmp (a b : PlainVersion) : Option Ordering :=
  match vercmp (if a.epoch.isEmpty then str "0" else a.epoch)
      (if b.epoch.isEmpty then str "0" else b.epoch) with
  | none => none
  | some o =>
    if o ≠ .eq then some o
    else
      match vercmp a.pkgver b.pkgver with
      | none => none
      | some o2 =>
        if o2 ≠ .eq then some o2
        else if a.pkgrel.isEmpty || b.pkgrel.isEmpty then some .eq
        else vercmp a.pkgrel b.pkgrel

/-- Ord for PlainVersion: the incomparable fallback imitates pacman and
returns Less. -/
def pvCmp (a b : PlainVersion) : Ordering :=
  match pvPartialCmp a b with
  | some o => o
  | none => .lt

/-! ## Source protocols and fragments (lib.rs enum SourceProtocol) -/

/-- Bzr fragment sum. -/
inductive BzrSourceFragment where
  | revision (v : List Char)
deriving DecidableEq

/-- Fossil fragment sum. -/
inductive FossilSourceFragment where
  | branch (v : List Char)
  | commit (v : List Char)
  | tag (v : List Char)
deriving DecidableEq

/-- Git fragment sum. -/
inductive GitSourceFragment where
  | branch (v : List Char)
  | commit (v : List Char)
  | tag (v : List Char)
deriving DecidableEq

/-- Hg fragment sum. -/
inductive HgSourceFragment where
  | branch (v : List Char)
  | revision (v : List Char)
  | tag (v : List Char)
deriving DecidableEq

/-- Svn fragment sum. -/
inductive SvnSourceFragment where
  | revision (v : List Char)
deriving DecidableEq

/-- The tagged protocol sum of a source (localPath embeds the Local
variant: a source definition with no scheme). -/
inductive SourceProtocol where
  | unknown
  | localPath
  | file
  | ftp
  | http
  | https
  | rsync
  | bzr (fragment : Option BzrSourceFragment)
  | fossil (fragment : Option FossilSourceFragment)
  | git (fragment : Option GitSourceFragment) (signed : Bool)
  | hg (fragment : Option HgSourceFragment)
  | svn (fragment : Option SvnSourceFragment)
deriving DecidableEq

/-- fn split_url_fragment: the part before the first hash sign, and the
fragment key and value split at the first equals sign. -/
def split_url_fragment (url : List Char) :
    Option (List Char × List Char × List Char) :=
  match splitOnceChar '#' url with
  | some (pre, fragment) =>
    match splitOnceChar '=' fragment with
    | some (key, value) => some (pre, key, value)
    | none => none
  | none => none

/-- fn split_url_fragment_no_query: like split_url_fragment but the
fragment is truncated at its first question mark before the key and
value split, and the pre-hash part is truncated at its first question
mark when a key and value were found. -/
def split_url_fragment_no_query (url : List Char) :
    Option (List Char × List Char × List Char) :=
  match splitOnceChar '#' url with
  | none => none
  | some (pre0, frag0) =>
    let fragment := match splitOnceChar '?' frag0 with
      | some (nfragment, _) => nfragment
      | none => frag0
    match splitOnceChar '=' fragment with
    | none => none
    | some (key, value) =>
      let pre := match splitOnceChar '?' pre0 with
        | some (u, _) => u
        | none => pre0
      some (pre, key, value)

/-- BzrSourceFragment::from_url. -/
def bzrFragmentFromUrl (url : List Char) :
    List Char × Option BzrSourceFragment :=
  match split_url_fragment url with
  | some (u, key, value) =>
    if key = str "revision" then (u, some (.revision value)) else (u, none)
  | none => (url, none)

/-- FossilSourceFragment::from_url. -/
def fossilFragmentFromUrl (url : List Char) :
    List Char × Option FossilSourceFragment :=
  match split_url_fragment url with
  | some (u, key, value) =>
    if key = str "branch" then (u, some (.branch value))
    else if key = str "commit" then (u, some (.commit value))
    else if key = str "tag" then (u, some (.tag value))
    else (u, none)
  | none => (url, none)

/-- GitSourceFragment::from_url (uses the no-query splitter). -/
def gitFragmentFromUrl (url : List Char) :
    List Char × Option GitSourceFragment :=
  match split_url_fragment_no_query url with
  | some (u, key, value) =>
    if key = str "branch" then (u, some (.branch value))
    else if key = str "commit" then (u, some (.commit value))
    else if key = str "tag" then (u, some (.tag value))
    else (u, none)
  | none => (url, none)

/-- HgSourceFragment::from_url. -/
def hgFragmentFromUrl (url : List Char) :
    List Char × Option HgSourceFragment :=
  match split_url_fragment url with
  | some (u, key, value) =>
    if key = str "branch" then (u, some (.branch value))
    else if key = str "revision" then (u, some (.revision value))
    else if key = str "tag" then (u, some (.tag value))
    else (u, none)
  | none => (url, none)

/-- SvnSourceFragment::from_url. -/
def svnFragmentFromUrl (url : List Char) :
    List Char × Option SvnSourceFragment :=
  match split_url_fragment url with
  | some (u, key, value) =>
    if key = str "revision" then (u, some (.revision value)) else (u, none)
  | none => (url, none)

/-- A source entry: local file name, connection URL, and protocol. -/
structure Source where
  name : List Char
  url : List Char
  protocol : SourceProtocol
deriving DecidableEq

/-- Name derivation from URL and protocol (Source::get_url_name, which
reads only the url and protocol fields). -/
def urlNameOf (url : List Char) (protocol : SourceProtocol) : List Char :=
  let name0 := match rsplitOnceChar '/' url with
    | some (_, n) => n
    | none => url
  match protocol with
  | .bzr _ =>
    match splitOnceSub (str "lp:") name0 with
    | some (_, rname) => rname
    | none => name0
  | .fossil _ => name0 ++ str ".fossil"
  | .git _ _ =>
    match stripSuffix (str ".git") name0 with
    | some lname => lname
    | none => name0
  | _ => name0

/-- Source::get_url_name. -/
def get_url_name (s : Source) : List Char :=
  urlNameOf s.url s.protocol

/-- Protocol dispatch on the scheme string after plus-rewriting, together
with the fragment stripping and the signed flag detection for Git, as in
the body of From of a str for Source.  Returns the protocol and the
final url. -/
def protocolFromScheme (pA urlA : List Char) : SourceProtocol × List Char :=
  if pA = str "file" then (.file, urlA)
  else if pA = str "ftp" then (.ftp, urlA)
  else if pA = str "http" then (.http, urlA)
  else if pA = str "https" then (.https, urlA)
  else if pA = str "rsync" then (.rsync, urlA)
  else if pA = str "bzr" then
    let uf := bzrFragmentFromUrl urlA
    (.bzr uf.2, uf.1)
  else if pA = str "fossil" then
    let uf := fossilFragmentFromUrl urlA
    (.fossil uf.2, uf.1)
  else if pA = str "git" then
    let uf := gitFragmentFromUrl urlA
    (.git uf.2 (containsSub (str "?signed") uf.1), uf.1)
  else if pA = str "hg" then
    let uf := hgFragmentFromUrl urlA
    (.hg uf.2, uf.1)
  else if pA = str "svn" then
    let uf := svnFragmentFromUrl urlA
    (.svn uf.2, uf.1)
  else (.unknown, urlA)

/-- From of a str for Source: optional name alias before the first
double colon, scheme detection at the first colon-slash-slash with
plus-rewriting, per-protocol fragment handling, and name derivation when
no alias was given. -/
def parseSource (definition : List Char) : Source :=
  let nu := match splitOnceSub (str "::") definition with
    | some (n, u) => (n, u)
    | none => (([] : List Char), definition)
  let pu := match splitOnceSub (str "://") nu.2 with
    | some (proto0, _) =>
      match splitOnceChar '+' proto0 with
      | some (protoActual, _) =>
        protocolFromScheme protoActual (nu.2.drop (protoActual.length + 1))
      | none => protocolFromScheme proto0 nu.2
    | none => (SourceProtocol.localPath, nu.2)
  let src : Source := ⟨nu.1, pu.2, pu.1⟩
  if src.name.isEmpty then { src with name := get_url_name src } else src

/-- SourceProtocol::get_proto_str. -/
def get_proto_str : SourceProtocol → List Char
  | .unknown => str "unknown"
  | .localPath => str "local"
  | .file => str "file"
  | .ftp => str "ftp"
  | .http => str "http"
  | .https => str "https"
  | .rsync => str "rsync"
  | .bzr _ => str "bzr"
  | .fossil _ => str "fossil"
  | .git _ _ => str "git"
  | .hg _ => str "hg"
  | .svn _ => str "svn"

/-- Display of a fragment: its type string and value around an equals
sign, as appended after a hash sign by get_pkgbuild_source. -/
def fragTV : SourceProtocol → Option (List Char × List Char)
  | .bzr (some (.revision v)) => some (str "revision", v)
  | .fossil (some (.branch v)) => some (str "branch", v)
  | .fossil (some (.commit v)) => some (str "commit", v)
  | .fossil (some (.tag v)) => some (str "tag", v)
  | .git (some (.branch v)) _ => some (str "branch", v)
  | .git (some (.commit v)) _ => some (str "commit", v)
  | .git (some (.tag v)) _ => some (str "tag", v)
  | .hg (some (.branch v)) => some (str "branch", v)
  | .hg (some (.revision v)) => some (str "revision", v)
  | .hg (some (.tag v)) => some (str "tag", v)
  | .svn (some (.revision v)) => some (str "revision", v)
  | _ => none

/-- Source::get_pkgbuild_source: canonical textual projection; name alias
when it differs from the derived name, protocol plus prefix when the
wire scheme differs, then the url, the fragment, and the signed query
marker for signed Git. -/
def get_pkgbuild_source (s : Source) : List Char :=
  let autoName := get_url_name s
  let aliasPart : List Char :=
    if autoName ≠ s.name then s.name ++ str "::" else []
  let protoUrl : List Char := match splitOnceSub (str "://") s.url with
    | some (p, _) => p
    | none => []
  let protoActual := get_proto_str s.protocol
  let plusPart : List Char := match s.protocol with
    | .unknown => []
    | .localPath => []
    | _ => if protoActual ≠ protoUrl then protoActual ++ [ '+' ] else []
  let fragPart : List Char := match fragTV s.protocol with
    | some (t, v) => '#' :: (t ++ '=' :: v)
    | none => []
  let signedPart : List Char := match s.protocol with
    | .git _ true => str "?signed"
    | _ => []
  aliasPart ++ plusPart ++ s.url ++ fragPart ++ signedPart

/-! ## Dependencies, provides, options (lib.rs) -/

/-- The dependency order sum. -/
inductive DependencyOrder where
  | greater
  | greaterOrEqual
  | equal
  | lessOrEqual
  | less
deriving DecidableEq

/-- An ordered version constraint. -/
structure OrderedVersion where
  order : DependencyOrder
  plain : PlainVersion
deriving DecidableEq

/-- A dependency: name plus optional ordered constraint. -/
structure Dependency where
  name : List Char
  version : Option OrderedVersion
deriving DecidableEq

/-- From of a str for Dependency: an equals sign is refined to the
greater-equal or less-equal relations, else single greater or less. -/
def dependencyFrom (value : List Char) : Dependency :=
  match splitOnceChar '=' value with
  | some (n, v) =>
    match splitOnceSub (str ">=") value with
    | some (n2, v2) =>
      ⟨n2, some ⟨.greaterOrEqual, plainVersionFromStr v2⟩⟩
    | none =>
      match splitOnceSub (str "<=") value with
      | some (n2, v2) =>
        ⟨n2, some ⟨.lessOrEqual, plainVersionFromStr v2⟩⟩
      | none => ⟨n, some ⟨.equal, plainVersionFromStr v⟩⟩
  | none =>
    match splitOnceChar '>' value with
    | some (n, v) => ⟨n, some ⟨.greater, plainVersionFromStr v⟩⟩
    | none =>
      match splitOnceChar '<' value with
      | some (n, v) => ⟨n, some ⟨.less, plainVersionFromStr v⟩⟩
      | none => ⟨value, none⟩

/-- An optional dependency with free-text reason. -/
structure OptionalDependency where
  dep : Dependency
  reason : List Char
deriving DecidableEq

/-- From of a str for OptionalDependency: reason after colon-space. -/
def optionalDependencyFrom (value : List Char) : OptionalDependency :=
  match splitOnceSub (str ": ") value with
  | some (dep, reason) => ⟨dependencyFrom dep, reason⟩
  | none => ⟨dependencyFrom value, []⟩

/-- A provide: name plus optional plain version. -/
structure Provide where
  name : List Char
  version : Option PlainVersion
deriving DecidableEq

/-- The error taxonomy portion reached by the embedded code paths. -/
inductive PkgErr where
  | parserScriptIllegalOutput (line : List Char)
  | brokenPKGBUILDs
deriving DecidableEq

/-- TryFrom of a str for Provide: any greater or less sign is a hard
BrokenPKGBUILDs error, else split at the first equals sign. -/
def provideTryFrom (value : List Char) : Except PkgErr Provide :=
  if value.contains '>' || value.contains '<' then
    .error .brokenPKGBUILDs
  else
    match splitOnceChar '=' value with
    | some (n, v) => .ok ⟨n, some (plainVersionFromStr v)⟩
    | none => .ok ⟨value, none⟩

/-- The twelve tri-state option flags. -/
structure Options where
  strip : Option Bool := none
  docs : Option Bool := none
  libtool : Option Bool := none
  staticlibs : Option Bool := none
  emptydirs : Option Bool := none
  zipman : Option Bool := none
  ccache : Option Bool := none
  distcc : Option Bool := none
  buildflags : Option Bool := none
  makeflags : Option Bool := none
  debug : Option Bool := none
  lto : Option Bool := none
deriving DecidableEq

/-- One iteration of the options lift: empty items skipped, a leading
bang sets Off, unknown names are warnings leaving the record unchanged. -/
def optionsApply (o : Options) (item : List Char) : Options :=
  match item with
  | [] => o
  | c :: rest =>
    let enable := c ≠ '!'
    let item2 := if enable then c :: rest else rest
    if !enable && rest.isEmpty then o
    else
      if item2 = str "strip" then { o with strip := some enable }
      else if item2 = str "docs" then { o with docs := some enable }
      else if item2 = str "libtool" then { o with libtool := some enable }
      else if item2 = str "staticlibs" then
        { o with staticlibs := some enable }
      else if item2 = str "emptydirs" then { o with emptydirs := some enable }
      else if item2 = str "zipman" then { o with zipman := some enable }
      else if item2 = str "ccache" then { o with ccache := some enable }
      else if item2 = str "distcc" then { o with distcc := some enable }
      else if item2 = str "buildflags" then
        { o with buildflags := some enable }
      else if item2 = str "makeflags" then { o with makeflags := some enable }
      else if item2 = str "debug" then { o with debug := some enable }
      else if item2 = str "lto" then { o with lto := some enable }
      else o

/-- From of a value vector for Options. -/
def optionsFrom (value : List (List Char)) : Options :=
  value.foldl optionsApply {}

/-! ## Architectures and the MultiArch shape (lib.rs) -/

/-- The architecture tag: known tags are distinguished variants, anything
else an opaque lower-cased string. -/
inductive Architecture where
  | x86_64
  | aarch64
  | armv7h
  | riscv64
  | other (arch : List Char)
deriving DecidableEq

/-- From of a str for Architecture: lower-case then match the known
set. -/
def archFrom (value : List Char) : Architecture :=
  let arch := value.map Char.toLower
  if arch = str "x86_64" then .x86_64
  else if arch = str "aarch64" then .aarch64
  else if arch = str "armv7h" then .armv7h
  else if arch = str "riscv64" then .riscv64
  else .other arch

/-- Architecture::as_ref. -/
def archAsRef : Architecture → List Char
  | .x86_64 => str "x86_64"
  | .aarch64 => str "aarch64"
  | .armv7h => str "armv7h"
  | .riscv64 => str "riscv64"
  | .other arch => arch

/-- MultiArch: the generic slot plus the keyed map (the ordered map is
modelled as a key-value list whose keys stay unique exactly as the
BTreeMap insert guard in the lift enforces). -/
structure MultiArch (T : Type) where
  any : T
  arches : List (Architecture × T)
deriving DecidableEq

/-- The shared lift loop over parsed arch frames (both TryFrom impls for
Package and Pkgbuild use this exact loop): the literal tag any fills the
any slot, anything else is inserted under its Architecture key, and an
insert that finds the key already present is a hard BrokenPKGBUILDs
error. -/
def liftArches {A T : Type} (tag : A → List Char)
    (liftA : A → Except PkgErr T) (init : MultiArch T) :
    List A → Except PkgErr (MultiArch T)
  | [] => .ok init
  | a :: rest => do
    let archValue ← liftA a
    if tag a = str "any" then
      liftArches tag liftA { init with any := archValue } rest
    else
      let key := archFrom (tag a)
      if (init.arches.lookup key).isSome then .error .brokenPKGBUILDs
      else
        liftArches tag liftA
          { init with arches := init.arches ++ [(key, archValue)] } rest

/-! ## Checksums (lib.rs checksum lift helpers) -/

/-- Hex value of one character (both cases, as the hex crate accepts). -/
def hexVal (c : Char) : Option Nat :=
  if 48 ≤ c.toNat ∧ c.toNat ≤ 57 then some (c.toNat - 48)
  else if 97 ≤ c.toNat ∧ c.toNat ≤ 102 then some (c.toNat - 87)
  else if 65 ≤ c.toNat ∧ c.toNat ≤ 70 then some (c.toNat - 55)
  else none

/-- Decode consecutive character pairs into bytes; odd leftovers fail. -/
def hexPairs : List Char → Option (List Nat)
  | [] => some []
  | [_] => none
  | hi :: lo :: rest => do
    let h ← hexVal hi
    let l ← hexVal lo
    let r ← hexPairs rest
    some ((h * 16 + l) :: r)

/-- FromHex for a byte array of n bytes: exactly 2n characters, all from
the hex alphabet, else failure. -/
def hexDecode (n : Nat) (s : List Char) : Option (List Nat) :=
  if s.length = 2 * n then hexPairs s else none

/-- Lowercase hex rendering of a byte list (write_byte_iter and the wire
format of checksums). -/
def hexDigitChar (d : Nat) : Char :=
  if d < 10 then Char.ofNat (48 + d) else Char.ofNat (87 + d)

/-- Lowercase hex encoding, two digits per byte. -/
def hexEncode (bs : List Nat) : List Char :=
  bs.flatMap fun b => [hexDigitChar (b / 16), hexDigitChar (b % 16)]

/-- Rust u32 from_str: an optional leading plus sign, at least one
digit, only digits, and the value below two to the 32. -/
def parseU32 (s : List Char) : Option Nat :=
  let digits := if s.head? = some '+' then s.tail else s
  if digits.isEmpty then none
  else if digits.all Char.isDigit then
    let n := digits.foldl (fun acc c => acc * 10 + (c.toNat - 48)) 0
    if n < 4294967296 then some n else none
  else none

/-- Decimal rendering of a natural number, for stating which strings
parse back as themselves. -/
def natToDec (n : Nat) : List Char :=
  if n = 0 then [ '0' ]
  else (Nat.digits 10 n).reverse.map fun d => Char.ofNat (48 + d)

/-- A source together with its eight optional checksums.  Byte arrays of
the Rust fixed-width types are byte lists whose exact length the
theorems establish. -/
structure SourceWithChecksum where
  source : Source
  cksum : Option Nat := none
  md5sum : Option (List Nat) := none
  sha1sum : Option (List Nat) := none
  sha224sum : Option (List Nat) := none
  sha256sum : Option (List Nat) := none
  sha384sum : Option (List Nat) := none
  sha512sum : Option (List Nat) := none
  b2sum : Option (List Nat) := none
deriving DecidableEq

/-! ## Borrowed intermediate records and the stream parser (lib.rs
PkgbuildsParsing::from_parser_output) -/

/-- Borrowed per-arch record of a split package. -/
structure PackageArchitectureParsing where
  arch : List Char := []
  checkdepends : List (List Char) := []
  depends : List (List Char) := []
  optdepends : List (List Char) := []
  provides : List (List Char) := []
  conflicts : List (List Char) := []
  replaces : List (List Char) := []
deriving DecidableEq

/-- Borrowed record of a split package. -/
structure PackageParsing where
  pkgname : List Char := []
  pkgdesc : List Char := []
  url : List Char := []
  license : List (List Char) := []
  groups : List (List Char) := []
  backup : List (List Char) := []
  options : List (List Char) := []
  install : List Char := []
  changelog : List Char := []
  arches : List PackageArchitectureParsing := []
deriving DecidableEq

/-- Borrowed per-arch record of a recipe. -/
structure PkgbuildArchitectureParsing where
  arch : List Char := []
  sources : List (List Char) := []
  cksums : List (List Char) := []
  md5sums : List (List Char) := []
  sha1sums : List (List Char) := []
  sha224sums : List (List Char) := []
  sha256sums : List (List Char) := []
  sha384sums : List (List Char) := []
  sha512sums : List (List Char) := []
  b2sums : List (List Char) := []
  depends : List (List Char) := []
  makedepends : List (List Char) := []
  checkdepends : List (List Char) := []
  optdepends : List (List Char) := []
  conflicts : List (List Char) := []
  provides : List (List Char) := []
  replaces : List (List Char) := []
deriving DecidableEq

/-- Borrowed record of a recipe. -/
structure PkgbuildParsing where
  pkgbase : List Char := []
  pkgs : List PackageParsing := []
  pkgver : List Char := []
  pkgrel : List Char := []
  epoch : List Char := []
  pkgdesc : List Char := []
  url : List Char := []
  license : List (List Char) := []
  install : List Char := []
  changelog : List Char := []
  validgpgkeys : List (List Char) := []
  noextract : List (List Char) := []
  groups : List (List Char) := []
  arches : List PkgbuildArchitectureParsing := []
  backups : List (List Char) := []
  options : List (List Char) := []
  pkgver_func : Bool := false
deriving DecidableEq

/-- The five states of the stream parser. -/
inductive ParsingState where
  | idle
  | pkgbuild (p : PkgbuildParsing)
  | pkg (p : PkgbuildParsing) (k : PackageParsing)
  | pkgArch (p : PkgbuildParsing) (k : PackageParsing)
      (a : PackageArchitectureParsing)
  | pkgbuildArch (p : PkgbuildParsing) (a : PkgbuildArchitectureParsing)
deriving DecidableEq

/-- splitn(2, colon) with defaults: key before the first colon, value
after it, the value empty when there is no colon. -/
def keyValue (line : List Char) : List Char × List Char :=
  match splitOnceChar ':' line with
  | some (k, v) => (k, v)
  | none => (line, [])

/-- One line of the stream parser state machine: empty lines are
skipped, the frame tokens drive transitions, anything else is a
key-value content line dispatched on the key, and unknown keys or tokens
are hard errors carrying the line. -/
def procLine (acc : List PkgbuildParsing) (st : ParsingState)
    (line : List Char) :
    Except PkgErr (List PkgbuildParsing × ParsingState) :=
  if line.isEmpty then .ok (acc, st)
  else
    match st with
    | .idle =>
      if line = str "PKGBUILD" then .ok (acc, .pkgbuild {})
      else .error (.parserScriptIllegalOutput line)
    | .pkgbuild p =>
      if line = str "PACKAGE" then .ok (acc, .pkg p {})
      else if line = str "ARCH" then .ok (acc, .pkgbuildArch p {})
      else if line = str "END" then .ok (acc ++ [p], .idle)
      else
        let kv := keyValue line
        let key := kv.1
        let value := kv.2
        if key = str "pkgbase" then
          .ok (acc, .pkgbuild { p with pkgbase := value })
        else if key = str "pkgver" then
          .ok (acc, .pkgbuild { p with pkgver := value })
        else if key = str "pkgrel" then
          .ok (acc, .pkgbuild { p with pkgrel := value })
        else if key = str "epoch" then
          .ok (acc, .pkgbuild { p with epoch := value })
        else if key = str "pkgdesc" then
          .ok (acc, .pkgbuild { p with pkgdesc := value })
        else if key = str "url" then
          .ok (acc, .pkgbuild { p with url := value })
        else if key = str "license" then
          .ok (acc, .pkgbuild { p with license := p.license ++ [value] })
        else if key = str "install" then
          .ok (acc, .pkgbuild { p with install := value })
        else if key = str "changelog" then
          .ok (acc, .pkgbuild { p with changelog := value })
        else if key = str "validgpgkeys" then
          .ok (acc,
            .pkgbuild { p with validgpgkeys := p.validgpgkeys ++ [value] })
        else if key = str "noextract" then
          .ok (acc, .pkgbuild { p with noextract := p.noextract ++ [value] })
        else if key = str "groups" then
          .ok (acc, .pkgbuild { p with groups := p.groups ++ [value] })
        else if key = str "backup" then
          .ok (acc, .pkgbuild { p with backups := p.backups ++ [value] })
        else if key = str "options" then
          .ok (acc, .pkgbuild { p with options := p.options ++ [value] })
        else if key = str "pkgver_func" then
          if value = str "y" then
            .ok (acc, .pkgbuild { p with pkgver_func := true })
          else if value = str "n" then
            .ok (acc, .pkgbuild { p with pkgver_func := false })
          else .error (.parserScriptIllegalOutput line)
        else .error (.parserScriptIllegalOutput line)
    | .pkg p k =>
      if line = str "PACKAGEARCH" then .ok (acc, .pkgArch p k {})
      else if line = str "END" then
        .ok (acc, .pkgbuild { p with pkgs := p.pkgs ++ [k] })
      else
        let kv := keyValue line
        let key := kv.1
        let value := kv.2
        if key = str "pkgname" then
          .ok (acc, .pkg p { k with pkgname := value })
        else if key = str "pkgdesc" then
          .ok (acc, .pkg p { k with pkgdesc := value })
        else if key = str "url" then
          .ok (acc, .pkg p { k with url := value })
        else if key = str "license" then
          .ok (acc, .pkg p { k with license := k.license ++ [value] })
        else if key = str "groups" then
          .ok (acc, .pkg p { k with groups := k.groups ++ [value] })
        else if key = str "backup" then
          .ok (acc, .pkg p { k with backup := k.backup ++ [value] })
        else if key = str "options" then
          .ok (acc, .pkg p { k with options := k.options ++ [value] })
        else if key = str "install" then
          .ok (acc, .pkg p { k with install := value })
        else if key = str "changelog" then
          .ok (acc, .pkg p { k with changelog := value })
        else .error (.parserScriptIllegalOutput line)
    | .pkgArch p k a =>
      if line = str "END" then
        .ok (acc, .pkg p { k with arches := k.arches ++ [a] })
      else
        let kv := keyValue line
        let key := kv.1
        let value := kv.2
        if key = str "arch" then .ok (acc, .pkgArch p k { a with arch := value })
        else if key = str "checkdepends" then
          .ok (acc, .pkgArch p k
            { a with checkdepends := a.checkdepends ++ [value] })
        else if key = str "depends" then
          .ok (acc, .pkgArch p k { a with depends := a.depends ++ [value] })
        else if key = str "optdepends" then
          .ok (acc, .pkgArch p k
            { a with optdepends := a.optdepends ++ [value] })
        else if key = str "provides" then
          .ok (acc, .pkgArch p k { a with provides := a.provides ++ [value] })
        else if key = str "conflicts" then
          .ok (acc, .pkgArch p k { a with conflicts := a.conflicts ++ [value] })
        else if key = str "replaces" then
          .ok (acc, .pkgArch p k { a with replaces := a.replaces ++ [value] })
        else .error (.parserScriptIllegalOutput line)
    | .pkgbuildArch p a =>
      if line = str "END" then
        .ok (acc, .pkgbuild { p with arches := p.arches ++ [a] })
      else
        let kv := keyValue line
        let key := kv.1
        let value := kv.2
        if key = str "arch" then
          .ok (acc, .pkgbuildArch p { a with arch := value })
        else if key = str "source" then
          .ok (acc, .pkgbuildArch p { a with sources := a.sources ++ [value] })
        else if key = str "cksums" then
          .ok (acc, .pkgbuildArch p { a with cksums := a.cksums ++ [value] })
        else if key = str "md5sums" then
          .ok (acc, .pkgbuildArch p { a with md5sums := a.md5sums ++ [value] })
        else if key = str "sha1sums" then
          .ok (acc, .pkgbuildArch p
            { a with sha1sums := a.sha1sums ++ [value] })
        else if key = str "sha224sums" then
          .ok (acc, .pkgbuildArch p
            { a with sha224sums := a.sha224sums ++ [value] })
        else if key = str "sha256sums" then
          .ok (acc, .pkgbuildArch p
            { a with sha256sums := a.sha256sums ++ [value] })
        else if key = str "sha384sums" then
          .ok (acc, .pkgbuildArch p
            { a with sha384sums := a.sha384sums ++ [value] })
        else if key = str "sha512sums" then
          .ok (acc, .pkgbuildArch p
            { a with sha512sums := a.sha512sums ++ [value] })
        else if key = str "b2sums" then
          .ok (acc, .pkgbuildArch p { a with b2sums := a.b2sums ++ [value] })
        else if key = str "depends" then
          .ok (acc, .pkgbuildArch p { a with depends := a.depends ++ [value] })
        else if key = str "makedepends" then
          .ok (acc, .pkgbuildArch p
            { a with makedepends := a.makedepends ++ [value] })
        else if key = str "checkdepends" then
          .ok (acc, .pkgbuildArch p
            { a with checkdepends := a.checkdepends ++ [value] })
        else if key = str "optdepends" then
          .ok (acc, .pkgbuildArch p
            { a with optdepends := a.optdepends ++ [value] })
        else if key = str "conflicts" then
          .ok (acc, .pkgbuildArch p
            { a with conflicts := a.conflicts ++ [value] })
        else if key = str "provides" then
          .ok (acc, .pkgbuildArch p
            { a with provides := a.provides ++ [value] })
        else if key = str "replaces" then
          .ok (acc, .pkgbuildArch p
            { a with replaces := a.replaces ++ [value] })
        else .error (.parserScriptIllegalOutput line)

/-- Fold of the state machine over a list of lines. -/
def procLines (acc : List PkgbuildParsing) (st : ParsingState) :
    List (List Char) → Except PkgErr (List PkgbuildParsing × ParsingState)
  | [] => .ok (acc, st)
  | line :: rest => do
    let s ← procLine acc st line
    procLines s.1 s.2 rest

/-- PkgbuildsParsing::from_parser_output: split the output on newlines,
drive the state machine, and accept the terminal states idle or an
implicitly closed Pkgbuild frame. -/
def from_parser_output (output : List Char) :
    Except PkgErr (List PkgbuildParsing) := do
  let s ← procLines [] .idle (splitPred (fun c => c = '\n') output)
  match s.2 with
  | .idle => .ok s.1
  | .pkgbuild p => .ok (s.1 ++ [p])
  | _ => .error (.parserScriptIllegalOutput [])

/-! ## The model lifter (lib.rs TryFrom impls) -/

/-- fn vec_items_try_from_vec_items: sequential fallible conversion of a
vector, stopping at the first error. -/
def mapExcept {α β : Type} (f : α → Except PkgErr β) :
    List α → Except PkgErr (List β)
  | [] => .ok []
  | x :: t => do
    let y ← f x
    let r ← mapExcept f t
    .ok (y :: r)

/-- Per-arch owned record of a split package. -/
structure PackageArchSpecific where
  checkdepends : List Dependency := []
  depends : List Dependency := []
  optdepends : List OptionalDependency := []
  provides : List Provide := []
  conflicts : List Dependency := []
  replaces : List Dependency := []
deriving DecidableEq

/-- TryFrom for PackageArchSpecific. -/
def packageArchSpecificTryFrom (v : PackageArchitectureParsing) :
    Except PkgErr PackageArchSpecific := do
  let provides ← mapExcept provideTryFrom v.provides
  .ok { checkdepends := v.checkdepends.map dependencyFrom,
        depends := v.depends.map dependencyFrom,
        optdepends := v.optdepends.map optionalDependencyFrom,
        provides,
        conflicts := v.conflicts.map dependencyFrom,
        replaces := v.replaces.map dependencyFrom }

/-- A split package. -/
structure Package where
  pkgname : List Char
  pkgdesc : List Char
  url : List Char
  license : List (List Char)
  groups : List (List Char)
  backup : List (List Char)
  options : Options
  install : List Char
  changelog : List Char
  multiarch : MultiArch PackageArchSpecific
deriving DecidableEq

/-- TryFrom for Package: the arch loop routes the literal tag any to the
any slot and rejects duplicate keys. -/
def packageTryFrom (value : PackageParsing) : Except PkgErr Package := do
  let multiarch ←
    liftArches (fun a => a.arch) packageArchSpecificTryFrom
      ⟨{}, []⟩ value.arches
  .ok { pkgname := value.pkgname,
        pkgdesc := value.pkgdesc,
        url := value.url,
        license := value.license,
        groups := value.groups,
        backup := value.backup,
        options := optionsFrom value.options,
        install := value.install,
        changelog := value.changelog,
        multiarch }

/-- Length mismatch test of the checksum lift: a non-empty vector whose
length differs from the source count. -/
def lenMismatch (l : List (List Char)) (len : Nat) : Bool :=
  !l.isEmpty && l.length ≠ len

/-- The per-index body of the checksum lift: the id-th entry of each
present checksum vector, SKIP (case-sensitive) becoming absent, cksums
parsed as decimal 32-bit integers, hash sums decoded from hex at their
fixed widths, any failure staying absent. -/
def sourceWithChecksumAt (v : PkgbuildArchitectureParsing) (id : Nat)
    (src : List Char) : SourceWithChecksum where
  source := parseSource src
  cksum := match v.cksums.get? id with
    | some ck => if ck = str "SKIP" then none else parseU32 ck
    | none => none
  md5sum := match v.md5sums.get? id with
    | some s => if s = str "SKIP" then none else hexDecode 16 s
    | none => none
  sha1sum := match v.sha1sums.get? id with
    | some s => if s = str "SKIP" then none else hexDecode 20 s
    | none => none
  sha224sum := match v.sha224sums.get? id with
    | some s => if s = str "SKIP" then none else hexDecode 28 s
    | none => none
  sha256sum := match v.sha256sums.get? id with
    | some s => if s = str "SKIP" then none else hexDecode 32 s
    | none => none
  sha384sum := match v.sha384sums.get? id with
    | some s => if s = str "SKIP" then none else hexDecode 48 s
    | none => none
  sha512sum := match v.sha512sums.get? id with
    | some s => if s = str "SKIP" then none else hexDecode 64 s
    | none => none
  b2sum := match v.b2sums.get? id with
    | some s => if s = str "SKIP" then none else hexDecode 64 s
    | none => none

/-- The sources-with-checksums block of the TryFrom impl for
PkgbuildArchSpecific: empty source vector yields the empty list, a
length mismatch of any non-empty checksum vector is a hard error, else
each source is paired with its decoded checksums by index. -/
def sourcesWithChecksumsFrom (v : PkgbuildArchitectureParsing) :
    Except PkgErr (List SourceWithChecksum) :=
  if v.sources.isEmpty then .ok []
  else
    let len := v.sources.length
    if lenMismatch v.cksums len || lenMismatch v.md5sums len ||
        lenMismatch v.sha1sums len || lenMismatch v.sha224sums len ||
        lenMismatch v.sha256sums len || lenMismatch v.sha384sums len ||
        lenMismatch v.sha512sums len || lenMismatch v.b2sums len then
      .error .brokenPKGBUILDs
    else
      .ok (v.sources.enum.map fun is => sourceWithChecksumAt v is.1 is.2)

/-- Per-arch owned record of a recipe. -/
structure PkgbuildArchSpecific where
  sources_with_checksums : List SourceWithChecksum := []
  depends : List Dependency := []
  makedepends : List Dependency := []
  checkdepends : List Dependency := []
  optdepends : List OptionalDependency := []
  conflicts : List Dependency := []
  provides : List Provide := []
  replaces : List Dependency := []
deriving DecidableEq

/-- TryFrom for PkgbuildArchSpecific. -/
def pkgbuildArchSpecificTryFrom (v : PkgbuildArchitectureParsing) :
    Except PkgErr PkgbuildArchSpecific := do
  let sources_with_checksums ← sourcesWithChecksumsFrom v
  let provides ← mapExcept provideTryFrom v.provides
  .ok { sources_with_checksums,
        depends := v.depends.map dependencyFrom,
        makedepends := v.makedepends.map dependencyFrom,
        checkdepends := v.checkdepends.map dependencyFrom,
        optdepends := v.optdepends.map optionalDependencyFrom,
        conflicts := v.conflicts.map dependencyFrom,
        provides,
        replaces := v.replaces.map dependencyFrom }

/-- An owned recipe record. -/
structure Pkgbuild where
  pkgbase : List Char
  pkgs : List Package
  version : PlainVersion
  pkgdesc : List Char
  url : List Char
  license : List (List Char)
  install : List Char
  changelog : List Char
  validpgpkeys : List (List Char)
  noextract : List (List Char)
  groups : List (List Char)
  multiarch : MultiArch PkgbuildArchSpecific
  backup : List (List Char)
  options : Options
  pkgver_func : Bool
deriving DecidableEq

/-- TryFrom for Pkgbuild: packages first, then the arch loop with the
literal any routing and the duplicate-key guard. -/
def pkgbuildTryFrom (value : PkgbuildParsing) : Except PkgErr Pkgbuild := do
  let pkgs ← mapExcept packageTryFrom value.pkgs
  let multiarch ←
    liftArches (fun a => a.arch) pkgbuildArchSpecificTryFrom
      ⟨{}, []⟩ value.arches
  .ok { pkgbase := value.pkgbase,
        pkgs,
        version := ⟨value.epoch, value.pkgver, value.pkgrel⟩,
        pkgdesc := value.pkgdesc,
        url := value.url,
        license := value.license,
        install := value.install,
        changelog := value.changelog,
        validpgpkeys := value.validgpgkeys,
        noextract := value.noextract,
        groups := value.groups,
        multiarch,
        backup := value.backups,
        options := optionsFrom value.options,
        pkgver_func := value.pkgver_func }

/-! ## SRCINFO checksum writing (lib.rs Display for Srcinfo) -/

/-- The per-family presence flags collected over an arch block. -/
structure StatChecksum where
  cksum : Bool := false
  md5sum : Bool := false
  sha1sum : Bool := false
  sha224sum : Bool := false
  sha256sum : Bool := false
  sha384sum : Bool := false
  sha512sum : Bool := false
  b2sum : Bool := false
deriving DecidableEq

/-- StatChecksum::ensure_least: when no family at all is present, turn
on the sha256 family. -/
def ensure_least (s : StatChecksum) : StatChecksum :=
  if !(s.cksum || s.md5sum || s.sha1sum || s.sha224sum || s.sha256sum ||
      s.sha384sum || s.sha512sum || s.b2sum) then
    { s with sha256sum := true }
  else s

/-- One source of the flag accumulation of write_sources_and_stat_sums:
each present checksum turns its family flag on. -/
def statStep (st : StatChecksum) (swc : SourceWithChecksum) : StatChecksum :=
  { cksum := st.cksum || swc.cksum.isSome,
    md5sum := st.md5sum || swc.md5sum.isSome,
    sha1sum := st.sha1sum || swc.sha1sum.isSome,
    sha224sum := st.sha224sum || swc.sha224sum.isSome,
    sha256sum := st.sha256sum || swc.sha256sum.isSome,
    sha384sum := st.sha384sum || swc.sha384sum.isSome,
    sha512sum := st.sha512sum || swc.sha512sum.isSome,
    b2sum := st.b2sum || swc.b2sum.isSome }

/-- The flag accumulation of write_sources_and_stat_sums over the
sources of one arch block, before ensure_least. -/
def statAccum (l : List SourceWithChecksum) : StatChecksum :=
  l.foldl statStep {}

/-- The stat returned by write_sources_and_stat_sums: accumulated flags
with ensure_least applied. -/
def statOf (l : List SourceWithChecksum) : StatChecksum :=
  ensure_least (statAccum l)

/-- writeln_indented_str: tab, title, space equals space, content;
nothing when the content is empty. -/
def writelnIndented (title content : List Char) : List (List Char) :=
  if content.isEmpty then [] else [ '\t' :: (title ++ str " = " ++ content)]

/-- One checksum family block of write_all_checksums: when the family
flag is set, one line per source, hex bytes when present and the SKIP
sentinel otherwise. -/
def writeChecksumFamily (flag : Bool) (title : List Char)
    (get : SourceWithChecksum → Option (List Nat))
    (l : List SourceWithChecksum) : List (List Char) :=
  if flag then
    l.flatMap fun swc =>
      match get swc with
      | some bytes => [ '\t' :: (title ++ str " = " ++ hexEncode bytes)]
      | none => writelnIndented title (str "SKIP")
  else []

/-- suffix_from_arch_name. -/
def suffixFromArchName (archName : List Char) : List Char :=
  if archName.isEmpty then [] else '_' :: archName

/-- fn write_all_checksums: the seven hash families in macro order; the
cksum family is never written. -/
def write_all_checksums (stat : StatChecksum) (archName : List Char)
    (l : List SourceWithChecksum) : List (List Char) :=
  let suffix := suffixFromArchName archName
  writeChecksumFamily stat.md5sum (str "md5sums" ++ suffix)
      (fun s => s.md5sum) l ++
    writeChecksumFamily stat.sha1sum (str "sha1sums" ++ suffix)
      (fun s => s.sha1sum) l ++
    writeChecksumFamily stat.sha224sum (str "sha224sums" ++ suffix)
      (fun s => s.sha224sum) l ++
    writeChecksumFamily stat.sha256sum (str "sha256sums" ++ suffix)
      (fun s => s.sha256sum) l ++
    writeChecksumFamily stat.sha384sum (str "sha384sums" ++ suffix)
      (fun s => s.sha384sum) l ++
    writeChecksumFamily stat.sha512sum (str "sha512sums" ++ suffix)
      (fun s => s.sha512sum) l ++
    writeChecksumFamily stat.b2sum (str "b2sums" ++ suffix)
      (fun s => s.b2sum) l

/-! ## A well-formedness predicate on parsed sources, delimiting where
the textual round trip of sources holds -/

/-- Characters that cannot interfere with any of the splitting steps of
the source parser: alphanumerics and the usual URL path punctuation,
excluding the separators colon, hash, question mark, plus and equals. -/
def plainChar (c : Char) : Bool :=
  c.isAlphanum || c = '.' || c = '/' || c = '-' || c = '_' || c = '~'

/-- A plausible scheme: non-empty and alphanumeric. -/
def schemeOk (p : List Char) : Bool :=
  !p.isEmpty && p.all Char.isAlphanum

/-- The closed scheme set of the parser. -/
def knownScheme (p : List Char) : Bool :=
  p = str "file" || p = str "ftp" || p = str "http" || p = str "https" ||
    p = str "rsync" || p = str "bzr" || p = str "fossil" || p = str "git" ||
    p = str "hg" || p = str "svn"

/-- An ordinary remote URL: scheme, separator, then plain characters. -/
def urlOk (url : List Char) : Bool :=
  match splitOnceSub (str "://") url with
  | some (p, r) => schemeOk p && r.all plainChar
  | none => false

/-- Like urlOk but additionally outside the closed scheme set, so that a
re-parse cannot promote an Unknown source to a recognized protocol. -/
def urlOkUnknown (url : List Char) : Bool :=
  match splitOnceSub (str "://") url with
  | some (p, r) => schemeOk p && r.all plainChar && !knownScheme p
  | none => false

/-- Well-formedness of a source record under which the textual round
trip is exact: plain name that is non-empty unless it is the derived
one, plain fragment value, ordinary URL for remote protocols (with the
extra scheme condition for Unknown), plain local path for Local, and an
unsigned Git. -/
def sourceWF (s : Source) : Bool :=
  s.name.all plainChar &&
    (!s.name.isEmpty || s.name == get_url_name s) &&
    (match fragTV s.protocol with
     | some tv => tv.2.all plainChar
     | none => true) &&
    (match s.protocol with
     | .localPath => s.url.all plainChar
     | .unknown => urlOkUnknown s.url
     | .git _ signed => !signed && urlOk s.url
     | _ => urlOk s.url)

/-! # Lemmas on the string utilities -/

theorem startsWith_append_self (p s : List Char) :
    startsWith p (p ++ s) = true := by
  induction p with
  | nil => rfl
  | cons c t ih => simp [startsWith, ih]

theorem startsWith_cons_iff {p : Char} {ps x : List Char} {y : Char} :
    startsWith (p :: ps) (y :: x) = true ↔ p = y ∧ startsWith ps x = true := by
  simp [startsWith]

theorem eq_append_drop_of_startsWith {p s : List Char}
    (h : startsWith p s = true) : s = p ++ s.drop p.length := by
  induction p generalizing s with
  | nil => simp
  | cons c t ih =>
    cases s with
    | nil => simp [startsWith] at h
    | cons y ys =>
      obtain ⟨rfl, h2⟩ := startsWith_cons_iff.mp h
      simpa using ih h2

theorem splitOnceChar_eq_none {c : Char} {s : List Char} (h : c ∉ s) :
    splitOnceChar c s = none := by
  induction s with
  | nil => rfl
  | cons x t ih =>
    simp only [List.mem_cons, not_or] at h
    have hx : ¬x = c := fun hh => h.1 hh.symm
    simp [splitOnceChar, hx, ih h.2]

theorem splitOnceChar_append {c : Char} {a : List Char} (b : List Char)
    (h : c ∉ a) : splitOnceChar c (a ++ c :: b) = some (a, b) := by
  induction a with
  | nil => simp [splitOnceChar]
  | cons x t ih =>
    simp only [List.mem_cons, not_or] at h
    have hx : ¬x = c := fun hh => h.1 hh.symm
    simp [splitOnceChar, hx, ih h.2]

theorem splitOnceChar_eq_some {c : Char} {s a b : List Char}
    (h : splitOnceChar c s = some (a, b)) : s = a ++ c :: b ∧ c ∉ a := by
  induction s generalizing a b with
  | nil => simp [splitOnceChar] at h
  | cons x t ih =>
    by_cases hx : x = c
    · subst hx
      simp only [splitOnceChar, if_pos rfl, Option.some.injEq, Prod.mk.injEq] at h
      obtain ⟨rfl, rfl⟩ := h
      simp
    · simp only [splitOnceChar, if_neg hx] at h
      cases ht : splitOnceChar c t with
      | none => rw [ht] at h; cases h
      | some ab =>
        obtain ⟨a0, b0⟩ := ab
        rw [ht] at h
        simp only [Option.some.injEq, Prod.mk.injEq] at h
        obtain ⟨rfl, rfl⟩ := h
        obtain ⟨hts, hcn⟩ := ih ht
        subst hts
        refine ⟨by simp, ?_⟩
        simp only [List.mem_cons, not_or]
        exact ⟨fun hh => hx hh.symm, hcn⟩

theorem splitOnceSub_cons (pat : List Char) (x : Char) (t : List Char) :
    splitOnceSub pat (x :: t) =
      if startsWith pat (x :: t) then some ([], (x :: t).drop pat.length)
      else Option.map (fun ab => (x :: ab.1, ab.2)) (splitOnceSub pat t) := by
  by_cases h : startsWith pat (x :: t) = true
  · simp [splitOnceSub, h]
  · simp only [splitOnceSub, h, if_false, Bool.false_eq_true]
    cases splitOnceSub pat t <;> simp [h]

theorem splitOnceSub_head_none {h : Char} {p s : List Char} (hm : h ∉ s) :
    splitOnceSub (h :: p) s = none := by
  induction s with
  | nil => simp [splitOnceSub]
  | cons x t ih =>
    simp only [List.mem_cons, not_or] at hm
    have hs : startsWith (h :: p) (x :: t) = false := by
      simp [startsWith, hm.1]
    rw [splitOnceSub_cons]
    simp [hs, ih hm.2]

theorem splitOnceSub_append_left {h : Char} {p a : List Char} (s : List Char)
    (hm : h ∉ a) :
    splitOnceSub (h :: p) (a ++ s) =
      Option.map (fun ab => (a ++ ab.1, ab.2)) (splitOnceSub (h :: p) s) := by
  induction a with
  | nil =>
    simp only [List.nil_append]
    cases hsp : splitOnceSub (h :: p) s <;> simp [hsp]
  | cons x t ih =>
    simp only [List.mem_cons, not_or] at hm
    have hs : startsWith (h :: p) (x :: (t ++ s)) = false := by
      simp [startsWith, hm.1]
    rw [List.cons_append, splitOnceSub_cons]
    rw [ih hm.2]
    simp only [hs, Bool.false_eq_true, if_false]
    cases splitOnceSub (h :: p) s <;> simp

theorem splitOnceSub_self_append (p s : List Char) (hp : p ≠ []) :
    splitOnceSub p (p ++ s) = some ([], s) := by
  cases p with
  | nil => exact absurd rfl hp
  | cons c t =>
    rw [List.cons_append, splitOnceSub_cons]
    have hs : startsWith (c :: t) (c :: (t ++ s)) = true := by
      simp [startsWith, startsWith_append_self]
    simp only [hs, if_true]
    have hd : (c :: (t ++ s)).drop (c :: t).length = s := by
      have := List.drop_left (c :: t) s
      rwa [List.cons_append] at this
    rw [hd]

theorem splitOnceSub_boundary {h : Char} {p a : List Char} (s : List Char)
    (hm : h ∉ a) :
    splitOnceSub (h :: p) (a ++ (h :: p) ++ s) = some (a, s) := by
  rw [List.append_assoc, splitOnceSub_append_left _ hm,
    splitOnceSub_self_append _ _ (by simp)]
  simp

theorem containsSub_eq_false {h : Char} {p s : List Char} (hm : h ∉ s) :
    containsSub (h :: p) s = false := by
  simp [containsSub, splitOnceSub_head_none hm]

theorem splitOnceSub_eq_some {pat s a b : List Char}
    (h : splitOnceSub pat s = some (a, b)) : s = a ++ pat ++ b := by
  induction s generalizing a b with
  | nil =>
    by_cases hp : pat.isEmpty
    · have hpe : pat = [] := by simpa [List.isEmpty_iff] using hp
      subst hpe
      simp only [splitOnceSub, List.isEmpty_nil, if_true, Option.some.injEq,
        Prod.mk.injEq] at h
      obtain ⟨rfl, rfl⟩ := h
      rfl
    · simp [splitOnceSub, hp] at h
  | cons x t ih =>
    rw [splitOnceSub_cons] at h
    by_cases hs : startsWith pat (x :: t) = true
    · rw [if_pos hs] at h
      simp only [Option.some.injEq, Prod.mk.injEq] at h
      obtain ⟨rfl, rfl⟩ := h
      simpa using eq_append_drop_of_startsWith hs
    · simp only [hs, Bool.false_eq_true, if_false] at h
      cases ht : splitOnceSub pat t with
      | none => rw [ht] at h; cases h
      | some ab =>
        obtain ⟨a0, b0⟩ := ab
        rw [ht] at h
        simp only [Option.map_some', Option.some.injEq, Prod.mk.injEq] at h
        obtain ⟨rfl, rfl⟩ := h
        simpa using ih ht

theorem drop_append_cons (a : List Char) (c : Char) (b : List Char) :
    (a ++ c :: b).drop (a.length + 1) = b := by
  have h1 : a ++ c :: b = (a ++ [c]) ++ b := by simp
  rw [h1]
  have h2 := List.drop_left (a ++ [c]) b
  rw [List.length_append, List.length_singleton] at h2
  exact h2

/-! # Lemmas on the version engine -/

theorem afterSubRuns_nil_ne_none (s2 : List Char) :
    afterSubRuns [] s2 ≠ .done none := by
  cases s2 <;> simp [afterSubRuns]

theorem segRun_ne_done_none :
    ∀ (fuel : Nat) (s1 s2 : List Char), s1.length ≤ fuel →
      segRun fuel s1 s2 ≠ .done none := by
  intro fuel
  induction fuel with
  | zero =>
    intro s1 s2 hl
    have h0 : s1 = [] := List.eq_nil_of_length_eq_zero (Nat.le_zero.mp hl)
    subst h0
    exact afterSubRuns_nil_ne_none s2
  | succ f ih =>
    intro s1 s2 hl
    cases s1 with
    | nil => exact afterSubRuns_nil_ne_none s2
    | cons c t =>
      have hrest :
          (t.dropWhile (fun x => x.isDigit == c.isDigit)).length ≤ f :=
        le_trans (List.dropWhile_sublist _).length_le
          (Nat.succ_le_succ_iff.mp hl)
      have hrest' :
          ((c :: t).dropWhile (fun x => x.isDigit == c.isDigit)).length ≤ f := by
        rw [List.dropWhile_cons, if_pos (by simp)]
        exact hrest
      simp only [segRun]
      repeat' split
      all_goals first
        | exact ih _ _ hrest
        | exact ih _ _ hrest'
        | simp

theorem segLoop_ne_done_none (s1 s2 : List Char) :
    segLoop s1 s2 ≠ .done none :=
  segRun_ne_done_none s1.length s1 s2 le_rfl

theorem verLoop_isSome : ∀ l1 l2, (verLoop l1 l2).isSome = true := by
  intro l1
  induction l1 with
  | nil => intro l2; cases l2 <;> simp [verLoop]
  | cons s1 t1 ih =>
    intro l2
    cases l2 with
    | nil => simp [verLoop]
    | cons s2 t2 =>
      simp only [verLoop]
      cases hsl : segLoop s1 s2 with
      | done o =>
        cases o with
        | none => exact absurd hsl (segLoop_ne_done_none s1 s2)
        | some o2 => simp
      | next => exact ih t2

theorem vercmp_isSome (a b : List Char) : (vercmp a b).isSome = true :=
  verLoop_isSome _ _

theorem pvPartialCmp_isSome (a b : PlainVersion) :
    (pvPartialCmp a b).isSome = true := by
  unfold pvPartialCmp
  cases h1 : vercmp (if a.epoch.isEmpty then str "0" else a.epoch)
      (if b.epoch.isEmpty then str "0" else b.epoch) with
  | none =>
    have := vercmp_isSome (if a.epoch.isEmpty then str "0" else a.epoch)
      (if b.epoch.isEmpty then str "0" else b.epoch)
    rw [h1] at this
    cases this
  | some o =>
    by_cases ho : o = .eq
    · subst ho
      simp only [ne_eq, not_true_eq_false, if_false]
      cases h2 : vercmp a.pkgver b.pkgver with
      | none =>
        have := vercmp_isSome a.pkgver b.pkgver
        rw [h2] at this
        cases this
      | some o2 =>
        by_cases ho2 : o2 = .eq
        · subst ho2
          simp only [ne_eq, not_true_eq_false, if_false]
          by_cases hrel : (a.pkgrel.isEmpty || b.pkgrel.isEmpty) = true
          · simp [hrel]
          · simp only [hrel, Bool.false_eq_true, if_false]
            exact vercmp_isSome a.pkgrel b.pkgrel
        · simp [ho2]
    · simp [ho]

theorem pvPartialCmp_eq_pvCmp (a b : PlainVersion) :
    pvPartialCmp a b = some (pvCmp a b) := by
  have h := pvPartialCmp_isSome a b
  cases hp : pvPartialCmp a b with
  | none => rw [hp] at h; cases h
  | some o => simp [pvCmp, hp]

/-! # Claims on the version engine -/

/-- Claim C3, divergence witness: the version comparison is not
antisymmetric in this code: both vercmp of 12 against 12a and vercmp of
12a against 12 return Less, whereas the claimed antisymmetry (and the
rpmvercmp algorithm the function documents itself as re-implementing)
demand that the two calls return opposite orderings. -/
theorem vercmp_not_antisymmetric_at_12_12a :
    vercmp (str "12") (str "12a") = some .lt ∧
      vercmp (str "12a") (str "12") = some .lt ∧
      vercmp (str "12") (str "12a") ≠
        (vercmp (str "12a") (str "12")).map Ordering.swap := by
  decide

/-- Claim C10: the version comparator is total: the inner loop never
produces the None early return (the branch guarded by the non-emptiness
re-check is unreachable), vercmp always returns some ordering,
PlainVersion partial comparison never returns None, and the incomparable
fallback of the total comparison is never taken (the total comparison
always coincides with the partial one). -/
theorem vercmp_total_partial_cmp_never_none :
    (∀ s1 s2 : List Char, segLoop s1 s2 ≠ SegStep.done none) ∧
      (∀ a b : List Char, (vercmp a b).isSome = true) ∧
      (∀ a b : PlainVersion, (pvPartialCmp a b).isSome = true) ∧
      (∀ a b : PlainVersion, pvPartialCmp a b = some (pvCmp a b)) :=
  ⟨segLoop_ne_done_none, vercmp_isSome, pvPartialCmp_isSome,
    pvPartialCmp_eq_pvCmp⟩

/-- Claim C9: PlainVersion comparison compares epochs first with an
empty epoch read as the string 0; on equal epochs it compares pkgver; and
it compares pkgrel only when both sides have a non-empty pkgrel,
otherwise the versions compare equal. -/
theorem plain_version_cmp_epoch_pkgver_pkgrel (a b : PlainVersion) :
    (∀ o, vercmp (if a.epoch.isEmpty then str "0" else a.epoch)
        (if b.epoch.isEmpty then str "0" else b.epoch) = some o → o ≠ .eq →
      pvPartialCmp a b = some o) ∧
    (vercmp (if a.epoch.isEmpty then str "0" else a.epoch)
        (if b.epoch.isEmpty then str "0" else b.epoch) = some .eq →
      ∀ o, vercmp a.pkgver b.pkgver = some o → o ≠ .eq →
        pvPartialCmp a b = some o) ∧
    (vercmp (if a.epoch.isEmpty then str "0" else a.epoch)
        (if b.epoch.isEmpty then str "0" else b.epoch) = some .eq →
      vercmp a.pkgver b.pkgver = some .eq →
      (a.pkgrel.isEmpty || b.pkgrel.isEmpty) = true →
      pvPartialCmp a b = some .eq) ∧
    (vercmp (if a.epoch.isEmpty then str "0" else a.epoch)
        (if b.epoch.isEmpty then str "0" else b.epoch) = some .eq →
      vercmp a.pkgver b.pkgver = some .eq →
      a.pkgrel.isEmpty = false → b.pkgrel.isEmpty = false →
      pvPartialCmp a b = vercmp a.pkgrel b.pkgrel) := by
  refine ⟨?_, ?_, ?_, ?_⟩
  · intro o h1 ho
    unfold pvPartialCmp
    rw [h1]
    simp [ho]
  · intro h1 o h2 ho
    unfold pvPartialCmp
    rw [h1]
    simp only [ne_eq, not_true_eq_false, if_false]
    rw [h2]
    simp [ho]
  · intro h1 h2 hrel
    unfold pvPartialCmp
    rw [h1]
    simp only [ne_eq, not_true_eq_false, if_false]
    rw [h2]
    simp [hrel]
  · intro h1 h2 hrel1 hrel2
    unfold pvPartialCmp
    rw [h1]
    simp only [ne_eq, not_true_eq_false, if_false]
    rw [h2]
    simp [hrel1, hrel2]

/-- Claim C9 witness: the epoch comparison decides at a concrete pair
with an empty epoch on the right coerced to the string 0. -/
theorem plain_version_cmp_witness :
    pvPartialCmp ⟨str "1", str "2", str "3"⟩ ⟨[], str "2", []⟩ =
      some .gt :=
  (plain_version_cmp_epoch_pkgver_pkgrel ⟨str "1", str "2", str "3"⟩
    ⟨[], str "2", []⟩).1 .gt (by decide) (by decide)

/-! # Claims on provides and the stream parser -/

/-- Claim C7: a provide string containing a greater or less sign is a
hard BrokenPKGBUILDs error; any other provide string is split at the
first equals sign into a name and an optional plain version. -/
theorem provide_rejects_order_splits_at_equals (value : List Char) :
    ((value.contains '>' = true ∨ value.contains '<' = true) →
      provideTryFrom value = .error .brokenPKGBUILDs) ∧
    (value.contains '>' = false → value.contains '<' = false →
      (∀ a b : List Char, value = a ++ '=' :: b → '=' ∉ a →
        provideTryFrom value = .ok ⟨a, some (plainVersionFromStr b)⟩) ∧
      ('=' ∉ value → provideTryFrom value = .ok ⟨value, none⟩)) := by
  constructor
  · intro h
    unfold provideTryFrom
    rcases h with h | h <;> rw [h] <;> simp
  · intro h1 h2
    constructor
    · rintro a b rfl hne
      unfold provideTryFrom
      rw [h1, h2]
      simp only [Bool.or_self, Bool.false_eq_true, if_false]
      rw [splitOnceChar_append b hne]
    · intro hnm
      unfold provideTryFrom
      rw [h1, h2]
      simp only [Bool.or_self, Bool.false_eq_true, if_false]
      rw [splitOnceChar_eq_none hnm]

/-- Claim C7 witness: a concrete versioned provide. -/
theorem provide_split_witness :
    provideTryFrom (str "pkg=1.0") =
      .ok ⟨str "pkg", some (plainVersionFromStr (str "1.0"))⟩ :=
  ((provide_rejects_order_splits_at_equals (str "pkg=1.0")).2
    (by decide) (by decide)).1 (str "pkg") (str "1.0") (by decide) (by decide)

/-- Claim C5, counterexample: a content line with an empty value is not
skipped; inserting the line license-colon into a stream changes the
parsed record (it appends an empty license entry). -/
theorem stream_parser_empty_value_not_skipped :
    from_parser_output (str "PKGBUILD\nlicense:\nEND") ≠
        from_parser_output (str "PKGBUILD\nEND") ∧
      from_parser_output (str "PKGBUILD\nEND") = .ok [{}] := by
  constructor
  · decide
  · decide

/-- Claim C5 amended: the stream parser skips only fully empty lines; a
key-value content line with an empty value is processed like any other
line, in particular an array key such as license appends an empty
entry. -/
theorem stream_parser_skips_only_empty_lines :
    (∀ (acc : List PkgbuildParsing) (st : ParsingState),
      procLine acc st [] = .ok (acc, st)) ∧
    (∀ (acc : List PkgbuildParsing) (p : PkgbuildParsing),
      procLine acc (.pkgbuild p) (str "license:") =
        .ok (acc, .pkgbuild { p with license := p.license ++ [[]] })) ∧
    from_parser_output (str "PKGBUILD\nlicense:\nEND") =
      .ok [{ license := [[]] }] := by
  refine ⟨fun acc st => rfl, fun acc p => rfl, by decide⟩

/-! # Lemmas on the arch lift loop -/

theorem lookup_isSome_iff {T : Type} (k : Architecture)
    (l : List (Architecture × T)) :
    (l.lookup k).isSome = true ↔ k ∈ l.map Prod.fst := by
  induction l with
  | nil => simp [List.lookup]
  | cons p t ih =>
    obtain ⟨k0, v0⟩ := p
    by_cases hk : k = k0
    · subst hk
      have hl : List.lookup k ((k, v0) :: t) = some v0 := by
        simp [List.lookup]
      rw [hl]
      simp
    · have hbeq : (k == k0) = false := by simp [hk]
      have hl : List.lookup k ((k0, v0) :: t) = List.lookup k t := by
        simp [List.lookup, hbeq]
      rw [hl, ih]
      simp [hk]

theorem liftArches_cons_error {A T : Type} (tag : A → List Char)
    (liftA : A → Except PkgErr T) (init : MultiArch T) {a : A}
    (rest : List A) {e : PkgErr} (hla : liftA a = .error e) :
    liftArches tag liftA init (a :: rest) = .error e := by
  simp only [liftArches]
  rw [hla]
  rfl

theorem liftArches_cons_ok {A T : Type} (tag : A → List Char)
    (liftA : A → Except PkgErr T) (init : MultiArch T) {a : A}
    (rest : List A) {v : T} (hla : liftA a = .ok v) :
    liftArches tag liftA init (a :: rest) =
      if tag a = str "any" then
        liftArches tag liftA { init with any := v } rest
      else if (init.arches.lookup (archFrom (tag a))).isSome then
        .error .brokenPKGBUILDs
      else
        liftArches tag liftA
          { init with arches := init.arches ++ [(archFrom (tag a), v)] }
          rest := by
  simp only [liftArches]
  rw [hla]
  rfl

theorem liftArches_ok_nodup {A T : Type} (tag : A → List Char)
    (liftA : A → Except PkgErr T) :
    ∀ (l : List A) (init m : MultiArch T),
      liftArches tag liftA init l = .ok m →
      ((init.arches.map Prod.fst).Nodup → (m.arches.map Prod.fst).Nodup) ∧
      (∀ k ∈ m.arches.map Prod.fst,
        k ∈ init.arches.map Prod.fst ∨
          ∃ a, a ∈ l ∧ tag a ≠ str "any" ∧ k = archFrom (tag a)) := by
  intro l
  induction l with
  | nil =>
    intro init m h
    simp only [liftArches, Except.ok.injEq] at h
    subst h
    exact ⟨fun hn => hn, fun k hk => Or.inl hk⟩
  | cons a rest ih =>
    intro init m h
    cases hla : liftA a with
    | error e => rw [liftArches_cons_error tag liftA init rest hla] at h; cases h
    | ok v =>
      rw [liftArches_cons_ok tag liftA init rest hla] at h
      by_cases hany : tag a = str "any"
      · rw [if_pos hany] at h
        have hr := ih _ _ h
        refine ⟨hr.1, fun k hk => ?_⟩
        rcases hr.2 k hk with h1 | ⟨a2, ha2, hne, hk2⟩
        · exact Or.inl h1
        · exact Or.inr ⟨a2, List.mem_cons_of_mem _ ha2, hne, hk2⟩
      · rw [if_neg hany] at h
        by_cases hlk : (init.arches.lookup (archFrom (tag a))).isSome = true
        · rw [if_pos hlk] at h; cases h
        · rw [if_neg hlk] at h
          have hmem : archFrom (tag a) ∉ init.arches.map Prod.fst :=
            fun hm => hlk ((lookup_isSome_iff _ _).mpr hm)
          have hr := ih _ _ h
          constructor
          · intro hnd
            apply hr.1
            simp only [List.map_append, List.map_cons, List.map_nil]
            simp [List.nodup_append, hnd, hmem]
          · intro k hk
            rcases hr.2 k hk with h1 | ⟨a2, ha2, hne2, hk2⟩
            · rw [List.map_append] at h1
              rcases List.mem_append.mp h1 with h2 | h2
              · exact Or.inl h2
              · simp only [List.map_cons, List.map_nil, List.mem_singleton]
                  at h2
                exact Or.inr ⟨a, List.mem_cons_self a rest, hany, h2⟩
            · exact Or.inr ⟨a2, List.mem_cons_of_mem _ ha2, hne2, hk2⟩

theorem liftArches_ok_fresh {A T : Type} (tag : A → List Char)
    (liftA : A → Except PkgErr T) :
    ∀ (l : List A) (init : MultiArch T) (m : MultiArch T),
      liftArches tag liftA init l = .ok m →
      (∀ a, a ∈ l → tag a ≠ str "any" →
        archFrom (tag a) ∉ init.arches.map Prod.fst) ∧
      l.Pairwise (fun a b => tag a ≠ str "any" → tag b ≠ str "any" →
        archFrom (tag a) ≠ archFrom (tag b)) := by
  intro l
  induction l with
  | nil => intro init m _; exact ⟨fun a ha => absurd ha (by simp), by simp⟩
  | cons a rest ih =>
    intro init m h
    cases hla : liftA a with
    | error e => rw [liftArches_cons_error tag liftA init rest hla] at h; cases h
    | ok v =>
      rw [liftArches_cons_ok tag liftA init rest hla] at h
      by_cases hany : tag a = str "any"
      · rw [if_pos hany] at h
        have hr := ih _ _ h
        constructor
        · intro a2 ha2 hne2
          rcases List.mem_cons.mp ha2 with rfl | ha2
          · exact absurd hany hne2
          · exact hr.1 a2 ha2 hne2
        · exact List.Pairwise.cons (fun b _ hne2 => absurd hany hne2) hr.2
      · rw [if_neg hany] at h
        by_cases hlk : (init.arches.lookup (archFrom (tag a))).isSome = true
        · rw [if_pos hlk] at h; cases h
        · rw [if_neg hlk] at h
          have hmem : archFrom (tag a) ∉ init.arches.map Prod.fst :=
            fun hm => hlk ((lookup_isSome_iff _ _).mpr hm)
          have hr := ih _ _ h
          constructor
          · intro a2 ha2 hne2
            rcases List.mem_cons.mp ha2 with rfl | ha2
            · exact hmem
            · intro hin
              exact hr.1 a2 ha2 hne2 (by
                simp only [List.map_append, List.map_cons, List.map_nil]
                exact List.mem_append_left _ hin)
          · refine List.Pairwise.cons (fun b hb hne1 hne2 => ?_) hr.2
            intro heq
            apply hr.1 b hb hne2
            simp only [List.map_append, List.map_cons, List.map_nil]
            refine List.mem_append_right _ ?_
            simp [heq]

theorem provideTryFrom_error (v : List Char) (e : PkgErr)
    (h : provideTryFrom v = .error e) : e = .brokenPKGBUILDs := by
  unfold provideTryFrom at h
  by_cases hc : (v.contains '>' || v.contains '<') = true
  · rw [if_pos hc] at h
    cases h
    rfl
  · rw [if_neg hc] at h
    cases hs : splitOnceChar '=' v with
    | none => rw [hs] at h; cases h
    | some ab => obtain ⟨a, b⟩ := ab; rw [hs] at h; cases h

theorem except_bind_error {ε α β : Type} (e : ε) (f : α → Except ε β) :
    ((Except.error e : Except ε α) >>= f) = Except.error e := rfl

theorem except_bind_ok {ε α β : Type} (a : α) (f : α → Except ε β) :
    ((Except.ok a : Except ε α) >>= f) = f a := rfl

theorem mapExcept_error {α β : Type} (f : α → Except PkgErr β)
    (hf : ∀ a e, f a = .error e → e = .brokenPKGBUILDs) :
    ∀ (l : List α) (e : PkgErr), mapExcept f l = .error e →
      e = .brokenPKGBUILDs := by
  intro l
  induction l with
  | nil => intro e h; cases h
  | cons x t ih =>
    intro e h
    simp only [mapExcept] at h
    cases hfx : f x with
    | error e2 =>
      rw [hfx, except_bind_error] at h
      injection h with h1
      subst h1
      exact hf x _ hfx
    | ok y =>
      rw [hfx, except_bind_ok] at h
      cases hmt : mapExcept f t with
      | error e2 =>
        rw [hmt, except_bind_error] at h
        injection h with h1
        subst h1
        exact ih _ hmt
      | ok r =>
        rw [hmt, except_bind_ok] at h
        cases h

theorem liftArches_error {A T : Type} (tag : A → List Char)
    (liftA : A → Except PkgErr T)
    (hl : ∀ (a : A) (e : PkgErr), liftA a = .error e →
      e = .brokenPKGBUILDs) :
    ∀ (l : List A) (init : MultiArch T) (e : PkgErr),
      liftArches tag liftA init l = .error e → e = .brokenPKGBUILDs := by
  intro l
  induction l with
  | nil => intro init e h; cases h
  | cons a rest ih =>
    intro init e h
    cases hla : liftA a with
    | error e2 =>
      rw [liftArches_cons_error tag liftA init rest hla] at h
      injection h with h1
      subst h1
      exact hl a _ hla
    | ok v =>
      rw [liftArches_cons_ok tag liftA init rest hla] at h
      by_cases hany : tag a = str "any"
      · rw [if_pos hany] at h
        exact ih _ _ h
      · rw [if_neg hany] at h
        by_cases hlk : (init.arches.lookup (archFrom (tag a))).isSome = true
        · rw [if_pos hlk] at h
          injection h with h1
          subst h1
          rfl
        · rw [if_neg hlk] at h
          exact ih _ _ h

theorem sourcesWithChecksumsFrom_error (v : PkgbuildArchitectureParsing)
    (e : PkgErr) (h : sourcesWithChecksumsFrom v = .error e) :
    e = .brokenPKGBUILDs := by
  unfold sourcesWithChecksumsFrom at h
  by_cases hs : v.sources.isEmpty = true
  · rw [if_pos hs] at h; cases h
  · rw [if_neg hs] at h
    set c := lenMismatch v.cksums v.sources.length ||
      lenMismatch v.md5sums v.sources.length ||
      lenMismatch v.sha1sums v.sources.length ||
      lenMismatch v.sha224sums v.sources.length ||
      lenMismatch v.sha256sums v.sources.length ||
      lenMismatch v.sha384sums v.sources.length ||
      lenMismatch v.sha512sums v.sources.length ||
      lenMismatch v.b2sums v.sources.length with hc
    by_cases hcc : c = true
    · rw [if_pos hcc] at h
      injection h with h1
      exact h1.symm
    · rw [if_neg hcc] at h
      cases h

theorem packageArchSpecificTryFrom_error (v : PackageArchitectureParsing)
    (e : PkgErr) (h : packageArchSpecificTryFrom v = .error e) :
    e = .brokenPKGBUILDs := by
  unfold packageArchSpecificTryFrom at h
  cases hm : mapExcept provideTryFrom v.provides with
  | error e2 =>
    rw [hm, except_bind_error] at h
    injection h with h1
    subst h1
    exact mapExcept_error _ provideTryFrom_error _ _ hm
  | ok r =>
    rw [hm, except_bind_ok] at h
    cases h

theorem pkgbuildArchSpecificTryFrom_error (v : PkgbuildArchitectureParsing)
    (e : PkgErr) (h : pkgbuildArchSpecificTryFrom v = .error e) :
    e = .brokenPKGBUILDs := by
  unfold pkgbuildArchSpecificTryFrom at h
  cases hm : sourcesWithChecksumsFrom v with
  | error e2 =>
    rw [hm, except_bind_error] at h
    injection h with h1
    subst h1
    exact sourcesWithChecksumsFrom_error _ _ hm
  | ok swcs =>
    rw [hm, except_bind_ok] at h
    cases hm2 : mapExcept provideTryFrom v.provides with
    | error e2 =>
      rw [hm2, except_bind_error] at h
      injection h with h1
      subst h1
      exact mapExcept_error _ provideTryFrom_error _ _ hm2
    | ok r =>
      rw [hm2, except_bind_ok] at h
      cases h

theorem packageTryFrom_error (w : PackageParsing) (e : PkgErr)
    (h : packageTryFrom w = .error e) : e = .brokenPKGBUILDs := by
  unfold packageTryFrom at h
  cases hm : liftArches (fun a => a.arch) packageArchSpecificTryFrom
      ⟨{}, []⟩ w.arches with
  | error e2 =>
    rw [hm, except_bind_error] at h
    injection h with h1
    subst h1
    exact liftArches_error _ _ packageArchSpecificTryFrom_error _ _ _ hm
  | ok ma =>
    rw [hm, except_bind_ok] at h
    cases h

theorem pkgbuildTryFrom_error (v : PkgbuildParsing) (e : PkgErr)
    (h : pkgbuildTryFrom v = .error e) : e = .brokenPKGBUILDs := by
  unfold pkgbuildTryFrom at h
  cases hm : mapExcept packageTryFrom v.pkgs with
  | error e2 =>
    rw [hm, except_bind_error] at h
    injection h with h1
    subst h1
    exact mapExcept_error _ packageTryFrom_error _ _ hm
  | ok pkgs =>
    rw [hm, except_bind_ok] at h
    cases hm2 : liftArches (fun a => a.arch) pkgbuildArchSpecificTryFrom
        ⟨{}, []⟩ v.arches with
    | error e2 =>
      rw [hm2, except_bind_error] at h
      injection h with h1
      subst h1
      exact liftArches_error _ _ pkgbuildArchSpecificTryFrom_error _ _ _ hm2
    | ok ma =>
      rw [hm2, except_bind_ok] at h
      cases h

theorem pkgbuildTryFrom_ok_multiarch (v : PkgbuildParsing) (m : Pkgbuild)
    (h : pkgbuildTryFrom v = .ok m) :
    liftArches (fun a => a.arch) pkgbuildArchSpecificTryFrom
      ⟨{}, []⟩ v.arches = .ok m.multiarch := by
  unfold pkgbuildTryFrom at h
  cases hm : mapExcept packageTryFrom v.pkgs with
  | error e2 => rw [hm, except_bind_error] at h; cases h
  | ok pkgs =>
    rw [hm, except_bind_ok] at h
    cases hm2 : liftArches (fun a => a.arch) pkgbuildArchSpecificTryFrom
        ⟨{}, []⟩ v.arches with
    | error e2 => rw [hm2, except_bind_error] at h; cases h
    | ok ma =>
      rw [hm2, except_bind_ok] at h
      injection h with h1
      subst h1
      rfl

theorem packageTryFrom_ok_multiarch (w : PackageParsing) (m : Package)
    (h : packageTryFrom w = .ok m) :
    liftArches (fun a => a.arch) packageArchSpecificTryFrom
      ⟨{}, []⟩ w.arches = .ok m.multiarch := by
  unfold packageTryFrom at h
  cases hm : liftArches (fun a => a.arch) packageArchSpecificTryFrom
      ⟨{}, []⟩ w.arches with
  | error e2 => rw [hm, except_bind_error] at h; cases h
  | ok ma =>
    rw [hm, except_bind_ok] at h
    injection h with h1
    subst h1
    rfl

/-! # Claims on the multi-arch lift -/

/-- Claim C6 amended: in every successfully lifted Pkgbuild and Package
the keys of the arch map are pairwise distinct, every key stems from an
intermediate arch tag other than the literal any (the literal tag any is
stored in the any slot, never in the map), and a duplicated architecture
key makes the lift fail with the BrokenPKGBUILDs error; however a tag
that merely lower-cases to any (such as ANY) does become a map key (see
the companion counterexample). -/
theorem lift_arch_key_discipline (v : PkgbuildParsing) (w : PackageParsing) :
    (∀ m, pkgbuildTryFrom v = .ok m →
      (m.multiarch.arches.map Prod.fst).Nodup ∧
      ∀ k ∈ m.multiarch.arches.map Prod.fst,
        ∃ a, a ∈ v.arches ∧ a.arch ≠ str "any" ∧ k = archFrom a.arch) ∧
    (∀ m, packageTryFrom w = .ok m →
      (m.multiarch.arches.map Prod.fst).Nodup ∧
      ∀ k ∈ m.multiarch.arches.map Prod.fst,
        ∃ a, a ∈ w.arches ∧ a.arch ≠ str "any" ∧ k = archFrom a.arch) ∧
    (¬ v.arches.Pairwise (fun a b => a.arch ≠ str "any" →
        b.arch ≠ str "any" → archFrom a.arch ≠ archFrom b.arch) →
      pkgbuildTryFrom v = .error .brokenPKGBUILDs) := by
  refine ⟨?_, ?_, ?_⟩
  · intro m h
    have hla := pkgbuildTryFrom_ok_multiarch v m h
    have hn := liftArches_ok_nodup _ _ _ _ _ hla
    refine ⟨hn.1 (by simp), fun k hk => ?_⟩
    rcases hn.2 k hk with h1 | ⟨a, ha, hne, hk2⟩
    · simp at h1
    · exact ⟨a, ha, hne, hk2⟩
  · intro m h
    have hla := packageTryFrom_ok_multiarch w m h
    have hn := liftArches_ok_nodup _ _ _ _ _ hla
    refine ⟨hn.1 (by simp), fun k hk => ?_⟩
    rcases hn.2 k hk with h1 | ⟨a, ha, hne, hk2⟩
    · simp at h1
    · exact ⟨a, ha, hne, hk2⟩
  · intro hnp
    cases hp : pkgbuildTryFrom v with
    | ok m =>
      have hla := pkgbuildTryFrom_ok_multiarch v m hp
      exact absurd (liftArches_ok_fresh _ _ _ _ _ hla).2 hnp
    | error e =>
      rw [pkgbuildTryFrom_error v e hp]

/-- Claim C6 witness: two frames for the same architecture make the lift
fail with the BrokenPKGBUILDs error. -/
theorem lift_arch_dup_witness :
    pkgbuildTryFrom
        { arches := [{ arch := str "x86_64" }, { arch := str "x86_64" }] } =
      .error .brokenPKGBUILDs :=
  (lift_arch_key_discipline
    { arches := [{ arch := str "x86_64" }, { arch := str "x86_64" }] }
    {}).2.2 (by decide)

/-- Claim C6, counterexample to the keys never being the name any: the
intermediate tag ANY is not the literal any, so it is inserted into the
keyed map, where its case-normalised key prints as any. -/
theorem lift_arch_any_uppercase_key :
    (pkgbuildTryFrom { arches := [{ arch := str "ANY" }] }).map
        (fun pb => pb.multiarch.arches.map (fun kv => archAsRef kv.1)) =
      .ok [str "any"] := by
  decide

/-! # Lemmas on checksum decoding -/

theorem hexVal_lt {c : Char} {d : Nat} (h : hexVal c = some d) : d < 16 := by
  unfold hexVal at h
  split_ifs at h with h1 h2 h3 <;> (injection h with h4; omega)

theorem hexVal_hexDigitChar {d : Nat} (hd : d < 16) :
    hexVal (hexDigitChar d) = some d := by
  interval_cases d <;> decide

theorem hexEncode_length (bs : List Nat) :
    (hexEncode bs).length = 2 * bs.length := by
  induction bs with
  | nil => rfl
  | cons b t ih =>
    simp only [hexEncode, List.flatMap_cons] at *
    simp only [List.length_append, List.length_cons, List.length_nil, ih]
    omega

theorem hexPairs_encode : ∀ (bs : List Nat), (∀ b ∈ bs, b < 256) →
    hexPairs (hexEncode bs) = some bs := by
  intro bs
  induction bs with
  | nil => intro _; rfl
  | cons b t ih =>
    intro h
    have hb : b < 256 := h b (by simp)
    have ht : ∀ x ∈ t, x < 256 := fun x hx => h x (by simp [hx])
    have h16a : b / 16 < 16 := by omega
    have h16b : b % 16 < 16 := by omega
    have hshape : hexEncode (b :: t) =
        hexDigitChar (b / 16) :: hexDigitChar (b % 16) :: hexEncode t := by
      simp [hexEncode]
    rw [hshape]
    simp only [hexPairs]
    rw [hexVal_hexDigitChar h16a, hexVal_hexDigitChar h16b, ih ht]
    have hdm : b / 16 * 16 + b % 16 = b := by omega
    simp [hdm]

theorem hexPairs_some : ∀ (s : List Char) (bs : List Nat),
    hexPairs s = some bs →
    s.length = 2 * bs.length ∧ (∀ b ∈ bs, b < 256) ∧
      (∀ c ∈ s, (hexVal c).isSome = true)
  | [], bs, h => by
    simp only [hexPairs, Option.some.injEq] at h
    subst h
    exact ⟨rfl, by simp, by simp⟩
  | [x], bs, h => by simp [hexPairs] at h
  | hi :: lo :: rest, bs, h => by
    simp only [hexPairs] at h
    cases hhi : hexVal hi with
    | none => rw [hhi] at h; simp at h
    | some dh =>
      rw [hhi] at h
      cases hlo : hexVal lo with
      | none => rw [hlo] at h; simp at h
      | some dl =>
        rw [hlo] at h
        cases hr : hexPairs rest with
        | none => rw [hr] at h; simp at h
        | some br =>
          rw [hr] at h
          simp only [Option.bind_eq_bind, Option.some_bind,
            Option.some.injEq] at h
          subst h
          have hrec := hexPairs_some rest br hr
          refine ⟨?_, ?_, ?_⟩
          · simp only [List.length_cons, hrec.1]
            omega
          · intro b hb
            rcases List.mem_cons.mp hb with rfl | hb
            · have := hexVal_lt hhi
              have := hexVal_lt hlo
              omega
            · exact hrec.2.1 b hb
          · intro c hc
            rcases List.mem_cons.mp hc with rfl | hc
            · simp [hhi]
            · rcases List.mem_cons.mp hc with rfl | hc
              · simp [hlo]
              · exact hrec.2.2 c hc

theorem hexDecode_some {n : Nat} {s : List Char} {bs : List Nat}
    (h : hexDecode n s = some bs) :
    bs.length = n ∧ ∀ b ∈ bs, b < 256 := by
  unfold hexDecode at h
  by_cases hl : s.length = 2 * n
  · rw [if_pos hl] at h
    have hp := hexPairs_some s bs h
    exact ⟨by omega, hp.2.1⟩
  · rw [if_neg hl] at h
    cases h

theorem hexDecode_encode {bs : List Nat} (h : ∀ b ∈ bs, b < 256) :
    hexDecode bs.length (hexEncode bs) = some bs := by
  unfold hexDecode
  rw [if_pos (hexEncode_length bs), hexPairs_encode bs h]

theorem hexDecode_wrong_length {n : Nat} {s : List Char}
    (h : s.length ≠ 2 * n) : hexDecode n s = none := by
  unfold hexDecode
  rw [if_neg h]

theorem hexDecode_bad_char {n : Nat} {s : List Char} {c : Char}
    (hc : c ∈ s) (hv : hexVal c = none) : hexDecode n s = none := by
  cases hd : hexDecode n s with
  | none => rfl
  | some bs =>
    unfold hexDecode at hd
    by_cases hl : s.length = 2 * n
    · rw [if_pos hl] at hd
      have := (hexPairs_some s bs hd).2.2 c hc
      rw [hv] at this
      cases this
    · rw [if_neg hl] at hd
      cases hd

theorem digit_char_facts {d : Nat} (h : d < 10) :
    (Char.ofNat (48 + d)).toNat = 48 + d ∧
      (Char.ofNat (48 + d)).isDigit = true ∧ Char.ofNat (48 + d) ≠ '+' := by
  interval_cases d <;> exact ⟨by decide, by decide, by decide⟩

theorem foldr_digits_eq_ofDigits (L : List Nat) :
    L.foldr (fun d acc => acc * 10 + d) 0 = Nat.ofDigits 10 L := by
  induction L with
  | nil => simp [Nat.ofDigits]
  | cons d t ih =>
    simp only [List.foldr_cons, Nat.ofDigits_cons, ih]
    ring

theorem foldl_digit_chars : ∀ (L : List Nat) (a : Nat), (∀ d ∈ L, d < 10) →
    L.foldl (fun acc d => acc * 10 + ((Char.ofNat (48 + d)).toNat - 48)) a =
      L.foldl (fun acc d => acc * 10 + d) a := by
  intro L
  induction L with
  | nil => intro a _; rfl
  | cons d t ih =>
    intro a h
    have hd : d < 10 := h d (by simp)
    have ht : ∀ x ∈ t, x < 10 := fun x hx => h x (by simp [hx])
    simp only [List.foldl_cons, (digit_char_facts hd).1, ih _ ht]
    congr 1
    omega

theorem parseU32_natToDec {n : Nat} (h : n < 4294967296) :
    parseU32 (natToDec n) = some n := by
  by_cases h0 : n = 0
  · subst h0
    decide
  · unfold natToDec
    rw [if_neg h0]
    have hne : Nat.digits 10 n ≠ [] := by
      simp [Nat.digits_ne_nil_iff_ne_zero, h0]
    have hlt : ∀ d ∈ Nat.digits 10 n, d < 10 := fun d hd =>
      Nat.digits_lt_base (by norm_num) hd
    have hltr : ∀ d ∈ (Nat.digits 10 n).reverse, d < 10 := by
      intro d hd
      exact hlt d (List.mem_reverse.mp hd)
    cases hds : (Nat.digits 10 n).reverse with
    | nil => exact absurd (by simpa using hds) hne
    | cons d0 dt =>
      have hd0 : d0 < 10 := hltr d0 (by rw [hds]; simp)
      have hdt : ∀ d ∈ dt, d < 10 := fun d hd =>
        hltr d (by rw [hds]; simp [hd])
      simp only [List.map_cons]
      unfold parseU32
      have hhd : ¬((Char.ofNat (48 + d0)) :: dt.map
          (fun d => Char.ofNat (48 + d))).head? = some '+' := by
        simp [(digit_char_facts hd0).2.2]
      rw [if_neg hhd]
      simp only [List.isEmpty_cons, Bool.false_eq_true, if_false]
      have hall : ((Char.ofNat (48 + d0)) :: dt.map
          (fun d => Char.ofNat (48 + d))).all Char.isDigit = true := by
        rw [List.all_eq_true]
        intro c hc
        rcases List.mem_cons.mp hc with rfl | hc
        · exact (digit_char_facts hd0).2.1
        · obtain ⟨d, hdm, rfl⟩ := List.mem_map.mp hc
          exact (digit_char_facts (hdt d hdm)).2.1
      rw [hall]
      simp only [if_true]
      have hfold : ((Char.ofNat (48 + d0)) :: dt.map
            (fun d => Char.ofNat (48 + d))).foldl
            (fun acc c => acc * 10 + (c.toNat - 48)) 0 = n := by
        have hmap : (Char.ofNat (48 + d0)) :: dt.map
            (fun d => Char.ofNat (48 + d)) =
              (d0 :: dt).map (fun d => Char.ofNat (48 + d)) := by simp
        rw [hmap, List.foldl_map]
        have := foldl_digit_chars (d0 :: dt) 0 (by
          intro d hd
          rcases List.mem_cons.mp hd with rfl | hd
          · exact hd0
          · exact hdt d hd)
        rw [this, ← hds, List.foldl_reverse]
        have hfr : (Nat.digits 10 n).foldr
            (fun x acc => acc * 10 + x) 0 = Nat.ofDigits 10 (Nat.digits 10 n) :=
          foldr_digits_eq_ofDigits _
        rw [hfr]
        exact_mod_cast Nat.ofDigits_digits 10 n
      rw [hfold]
      simp [h]

theorem parseU32_none_of_bad {s : List Char} {c : Char} (hc : c ∈ s)
    (hd : c.isDigit = false) (hp : c ≠ '+') : parseU32 s = none := by
  cases s with
  | nil => simp at hc
  | cons x xs =>
    unfold parseU32
    by_cases hx : x = '+'
    · subst hx
      have hhd : (('+' :: xs).head? = some '+') := rfl
      rw [if_pos hhd]
      have hcx : c ∈ xs := by
        rcases List.mem_cons.mp hc with rfl | h2
        · exact absurd rfl hp
        · exact h2
      have hall : xs.all Char.isDigit = false := by
        rw [List.all_eq_false]
        exact ⟨c, hcx, by simp [hd]⟩
      have hne : xs.isEmpty = false := by
        cases xs
        · simp at hcx
        · rfl
      simp only [List.tail_cons, hne, Bool.false_eq_true, if_false, hall]
    · have hhd : ¬((x :: xs).head? = some '+') := by simp [hx]
      rw [if_neg hhd]
      have hall : (x :: xs).all Char.isDigit = false := by
        rw [List.all_eq_false]
        exact ⟨c, hc, by simp [hd]⟩
      simp only [List.isEmpty_cons, Bool.false_eq_true, if_false, hall]

theorem lenMismatch_eq_false {l : List (List Char)} {n : Nat}
    (h : l.isEmpty = true ∨ l.length = n) : lenMismatch l n = false := by
  unfold lenMismatch
  rcases h with h | h
  · simp [h]
  · simp [h]

/-! # Claim on the checksum lift -/

/-- Claim C8: for an aligned arch bundle the checksum lift succeeds and
pairs each source with its decoded entries; per index, a SKIP entry is
absent, a cksums entry goes through the decimal 32-bit parser (which
accepts every decimal rendering of a value below two to the 32 and
returns absent on any other character), and each hash entry goes through
the fixed-width hex decoder (16, 20, 28, 32, 48, 64 and 64 bytes), which
inverts the lowercase hex rendering at exactly the expected width,
returns byte values below 256 of exactly the requested width whenever it
succeeds, and returns absent on any length or alphabet mismatch; the
lift is total, never panicking. -/
theorem checksum_lift_rules (v : PkgbuildArchitectureParsing)
    (h1 : v.cksums.isEmpty = true ∨ v.cksums.length = v.sources.length)
    (h2 : v.md5sums.isEmpty = true ∨ v.md5sums.length = v.sources.length)
    (h3 : v.sha1sums.isEmpty = true ∨ v.sha1sums.length = v.sources.length)
    (h4 : v.sha224sums.isEmpty = true ∨
      v.sha224sums.length = v.sources.length)
    (h5 : v.sha256sums.isEmpty = true ∨
      v.sha256sums.length = v.sources.length)
    (h6 : v.sha384sums.isEmpty = true ∨
      v.sha384sums.length = v.sources.length)
    (h7 : v.sha512sums.isEmpty = true ∨
      v.sha512sums.length = v.sources.length)
    (h8 : v.b2sums.isEmpty = true ∨ v.b2sums.length = v.sources.length) :
    sourcesWithChecksumsFrom v =
      .ok (v.sources.enum.map fun is => sourceWithChecksumAt v is.1 is.2) ∧
    (∀ id src e, v.cksums.get? id = some e →
      (sourceWithChecksumAt v id src).cksum =
        (if e = str "SKIP" then none else parseU32 e)) ∧
    (∀ id src e, v.md5sums.get? id = some e →
      (sourceWithChecksumAt v id src).md5sum =
        (if e = str "SKIP" then none else hexDecode 16 e)) ∧
    (∀ id src e, v.sha1sums.get? id = some e →
      (sourceWithChecksumAt v id src).sha1sum =
        (if e = str "SKIP" then none else hexDecode 20 e)) ∧
    (∀ id src e, v.sha224sums.get? id = some e →
      (sourceWithChecksumAt v id src).sha224sum =
        (if e = str "SKIP" then none else hexDecode 28 e)) ∧
    (∀ id src e, v.sha256sums.get? id = some e →
      (sourceWithChecksumAt v id src).sha256sum =
        (if e = str "SKIP" then none else hexDecode 32 e)) ∧
    (∀ id src e, v.sha384sums.get? id = some e →
      (sourceWithChecksumAt v id src).sha384sum =
        (if e = str "SKIP" then none else hexDecode 48 e)) ∧
    (∀ id src e, v.sha512sums.get? id = some e →
      (sourceWithChecksumAt v id src).sha512sum =
        (if e = str "SKIP" then none else hexDecode 64 e)) ∧
    (∀ id src e, v.b2sums.get? id = some e →
      (sourceWithChecksumAt v id src).b2sum =
        (if e = str "SKIP" then none else hexDecode 64 e)) ∧
    (∀ n : Nat, n < 4294967296 → parseU32 (natToDec n) = some n) ∧
    (∀ (s : List Char) (c : Char), c ∈ s → c.isDigit = false → c ≠ '+' →
      parseU32 s = none) ∧
    (∀ bs : List Nat, (∀ b ∈ bs, b < 256) →
      hexDecode bs.length (hexEncode bs) = some bs) ∧
    (∀ (n : Nat) (s : List Char) (bs : List Nat), hexDecode n s = some bs →
      bs.length = n ∧ ∀ b ∈ bs, b < 256) ∧
    (∀ (n : Nat) (s : List Char), s.length ≠ 2 * n → hexDecode n s = none) ∧
    (∀ (n : Nat) (s : List Char) (c : Char), c ∈ s → hexVal c = none →
      hexDecode n s = none) := by
  refine ⟨?_, ?_, ?_, ?_, ?_, ?_, ?_, ?_, ?_,
    fun n hn => parseU32_natToDec hn,
    fun s c hc hd hp => parseU32_none_of_bad hc hd hp,
    fun bs hb => hexDecode_encode hb,
    fun n s bs h => hexDecode_some h,
    fun n s h => hexDecode_wrong_length h,
    fun n s c hc hv => hexDecode_bad_char hc hv⟩
  · unfold sourcesWithChecksumsFrom
    by_cases hs : v.sources.isEmpty = true
    · rw [if_pos hs]
      have hnil : v.sources = [] := by simpa [List.isEmpty_iff] using hs
      rw [hnil]
      rfl
    · rw [if_neg hs]
      simp [lenMismatch_eq_false h1, lenMismatch_eq_false h2,
        lenMismatch_eq_false h3, lenMismatch_eq_false h4,
        lenMismatch_eq_false h5, lenMismatch_eq_false h6,
        lenMismatch_eq_false h7, lenMismatch_eq_false h8]
  · intro id src e he
    simp only [sourceWithChecksumAt]
    rw [he]
  · intro id src e he
    simp only [sourceWithChecksumAt]
    rw [he]
  · intro id src e he
    simp only [sourceWithChecksumAt]
    rw [he]
  · intro id src e he
    simp only [sourceWithChecksumAt]
    rw [he]
  · intro id src e he
    simp only [sourceWithChecksumAt]
    rw [he]
  · intro id src e he
    simp only [sourceWithChecksumAt]
    rw [he]
  · intro id src e he
    simp only [sourceWithChecksumAt]
    rw [he]
  · intro id src e he
    simp only [sourceWithChecksumAt]
    rw [he]

/-- Claim C8 witness: the aligned-bundle conclusion at a concrete bundle
with one source, a decimal cksum and a SKIP sha256 entry. -/
theorem checksum_lift_witness :
    sourcesWithChecksumsFrom
        { arch := str "x86_64", sources := [str "file.txt"],
            cksums := [str "3456789012"], sha256sums := [str "SKIP"] } =
      .ok (({ arch := str "x86_64", sources := [str "file.txt"],
                cksums := [str "3456789012"], sha256sums := [str "SKIP"] } :
            PkgbuildArchitectureParsing).sources.enum.map
          fun is =>
            sourceWithChecksumAt
              { arch := str "x86_64", sources := [str "file.txt"],
                  cksums := [str "3456789012"],
                  sha256sums := [str "SKIP"] }
              is.1 is.2) :=
  (checksum_lift_rules _ (by decide) (by decide) (by decide) (by decide)
    (by decide) (by decide) (by decide) (by decide)).1

/-! # Lemmas on the SRCINFO checksum writer -/

theorem statFold_id : ∀ (l : List SourceWithChecksum) (st : StatChecksum),
    (∀ swc ∈ l, swc.cksum = none ∧ swc.md5sum = none ∧ swc.sha1sum = none ∧
      swc.sha224sum = none ∧ swc.sha256sum = none ∧ swc.sha384sum = none ∧
      swc.sha512sum = none ∧ swc.b2sum = none) →
    l.foldl statStep st = st := by
  intro l
  induction l with
  | nil => intro st _; rfl
  | cons swc t ih =>
    intro st h
    have hs := h swc (by simp)
    have ht : ∀ x ∈ t, _ := fun x hx => h x (by simp [hx])
    simp only [List.foldl_cons]
    have hstep : statStep st swc = st := by
      simp [statStep, hs.1, hs.2.1, hs.2.2.1, hs.2.2.2.1, hs.2.2.2.2.1,
        hs.2.2.2.2.2.1, hs.2.2.2.2.2.2.1, hs.2.2.2.2.2.2.2]
    rw [hstep]
    exact ih st ht

theorem statFold_field {X : Type} (f : StatChecksum → Bool)
    (g : SourceWithChecksum → Option X)
    (hfg : ∀ st swc, f (statStep st swc) = (f st || (g swc).isSome)) :
    ∀ (l : List SourceWithChecksum) (st : StatChecksum),
      f (l.foldl statStep st) =
        (f st || l.any fun swc => (g swc).isSome) := by
  intro l
  induction l with
  | nil => intro st; simp
  | cons swc t ih =>
    intro st
    simp only [List.foldl_cons, List.any_cons, ih, hfg]
    rw [Bool.or_assoc]

theorem ensure_least_md5 (s : StatChecksum) :
    (ensure_least s).md5sum = s.md5sum := by
  unfold ensure_least
  split <;> rfl

theorem ensure_least_keeps (s : StatChecksum) :
    (ensure_least s).md5sum = s.md5sum ∧
      (ensure_least s).sha1sum = s.sha1sum ∧
      (ensure_least s).sha224sum = s.sha224sum ∧
      (ensure_least s).sha384sum = s.sha384sum ∧
      (ensure_least s).sha512sum = s.sha512sum ∧
      (ensure_least s).b2sum = s.b2sum ∧
      (ensure_least s).cksum = s.cksum := by
  unfold ensure_least
  split <;> exact ⟨rfl, rfl, rfl, rfl, rfl, rfl, rfl⟩

theorem ensure_least_sha256 (s : StatChecksum) (h : s.sha256sum = true) :
    (ensure_least s).sha256sum = true := by
  unfold ensure_least
  split <;> simp [h]

theorem writeChecksumFamily_length (flag : Bool) (title : List Char)
    (get : SourceWithChecksum → Option (List Nat))
    (l : List SourceWithChecksum) :
    (writeChecksumFamily flag title get l).length =
      if flag then l.length else 0 := by
  cases flag with
  | false => rfl
  | true =>
    simp only [if_true, writeChecksumFamily]
    induction l with
    | nil => rfl
    | cons swc t ih =>
      have hone : (match get swc with
          | some bytes => [ '\t' :: (title ++ str " = " ++ hexEncode bytes)]
          | none => writelnIndented title (str "SKIP")).length = 1 := by
        cases get swc with
        | some bytes => rfl
        | none =>
          have hskip : (str "SKIP").isEmpty = false := by decide
          simp [writelnIndented, hskip]
      simp only [List.flatMap_cons, List.length_append, hone, ih,
        List.length_cons]
      omega

theorem writeChecksumFamily_all_none (title : List Char)
    (get : SourceWithChecksum → Option (List Nat))
    (l : List SourceWithChecksum) (h : ∀ swc ∈ l, get swc = none) :
    writeChecksumFamily true title get l =
      l.map fun _ => '\t' :: (title ++ str " = " ++ str "SKIP") := by
  simp only [writeChecksumFamily, if_true]
  induction l with
  | nil => rfl
  | cons swc t ih =>
    have hs := h swc (by simp)
    have ht : ∀ x ∈ t, get x = none := fun x hx => h x (by simp [hx])
    simp only [List.flatMap_cons, List.map_cons, hs, ih ht]
    rfl

/-! # Claims on the SRCINFO checksum writer -/

/-- Claim C4, counterexample: a source whose only present checksum is
the CRC32 cksum receives no checksum line at all: the presence of the
cksum satisfies the ensure-least test, yet write_all_checksums never
writes the cksums family. -/
theorem srcinfo_cksum_only_source_gets_no_line :
    write_all_checksums
        (statOf [{ source := parseSource (str "file.txt"), cksum := some 1 }])
        []
        [{ source := parseSource (str "file.txt"), cksum := some 1 }] =
      [] ∧
      [({ source := parseSource (str "file.txt"), cksum := some 1 }
            : SourceWithChecksum)].length = 1 := by
  constructor
  · decide
  · rfl

/-- Claim C4 amended: the writer emits, for each checksum family among
the seven hash families whose flag is set, exactly one line per source;
hence every source gets at least one checksum line whenever some hash
family is present in the block, and when all eight checksum fields of
every source are absent the block degenerates to exactly one
sha256sums-SKIP line per source; but a block whose only present family
is cksum gets no checksum line (see the companion counterexample, the
cksums family is never written). -/
theorem srcinfo_checksum_line_guarantee (l : List SourceWithChecksum)
    (archName : List Char) :
    ((∀ swc ∈ l, swc.cksum = none ∧ swc.md5sum = none ∧ swc.sha1sum = none ∧
        swc.sha224sum = none ∧ swc.sha256sum = none ∧
        swc.sha384sum = none ∧ swc.sha512sum = none ∧ swc.b2sum = none) →
      write_all_checksums (statOf l) archName l =
        l.map fun _ =>
          '\t' :: (str "sha256sums" ++ suffixFromArchName archName ++
            str " = " ++ str "SKIP")) ∧
    (((statOf l).md5sum || (statOf l).sha1sum || (statOf l).sha224sum ||
        (statOf l).sha256sum || (statOf l).sha384sum ||
        (statOf l).sha512sum || (statOf l).b2sum) = true →
      l.length ≤ (write_all_checksums (statOf l) archName l).length) ∧
    ((∃ swc ∈ l, swc.md5sum.isSome = true) → (statOf l).md5sum = true) ∧
    ((∃ swc ∈ l, swc.sha1sum.isSome = true) → (statOf l).sha1sum = true) ∧
    ((∃ swc ∈ l, swc.sha224sum.isSome = true) →
      (statOf l).sha224sum = true) ∧
    ((∃ swc ∈ l, swc.sha256sum.isSome = true) →
      (statOf l).sha256sum = true) ∧
    ((∃ swc ∈ l, swc.sha384sum.isSome = true) →
      (statOf l).sha384sum = true) ∧
    ((∃ swc ∈ l, swc.sha512sum.isSome = true) →
      (statOf l).sha512sum = true) ∧
    ((∃ swc ∈ l, swc.b2sum.isSome = true) → (statOf l).b2sum = true) := by
  refine ⟨?_, ?_, ?_, ?_, ?_, ?_, ?_, ?_, ?_⟩
  · intro h
    have hst : statAccum l = {} := statFold_id l {} h
    have hsf : statOf l = { sha256sum := true } := by
      unfold statOf
      rw [hst]
      decide
    rw [hsf]
    unfold write_all_checksums
    dsimp only
    have hget : ∀ swc ∈ l, swc.sha256sum = none :=
      fun swc hs => (h swc hs).2.2.2.2.1
    rw [writeChecksumFamily_all_none
      (str "sha256sums" ++ suffixFromArchName archName)
      (fun s => s.sha256sum) l hget]
    simp [writeChecksumFamily]
  · intro h
    unfold write_all_checksums
    simp only [List.length_append, writeChecksumFamily_length]
    rcases Bool.or_eq_true_iff.mp h with h7 | hb2
    rcases Bool.or_eq_true_iff.mp h7 with h6 | h512
    rcases Bool.or_eq_true_iff.mp h6 with h5 | h384
    rcases Bool.or_eq_true_iff.mp h5 with h4 | h256
    rcases Bool.or_eq_true_iff.mp h4 with h3 | h224
    rcases Bool.or_eq_true_iff.mp h3 with hmd5 | h1
    · rw [hmd5]
      split_ifs <;> first
        | omega
        | (exfalso; simp_all)
    · rw [h1]
      split_ifs <;> first
        | omega
        | (exfalso; simp_all)
    · rw [h224]
      split_ifs <;> first
        | omega
        | (exfalso; simp_all)
    · rw [h256]
      split_ifs <;> first
        | omega
        | (exfalso; simp_all)
    · rw [h384]
      split_ifs <;> first
        | omega
        | (exfalso; simp_all)
    · rw [h512]
      split_ifs <;> first
        | omega
        | (exfalso; simp_all)
    · rw [hb2]
      split_ifs <;> first
        | omega
        | (exfalso; simp_all)
  · rintro ⟨swc, hm, hs⟩
    unfold statOf
    rw [(ensure_least_keeps _).1]
    unfold statAccum
    rw [statFold_field (fun s => s.md5sum) (fun s => s.md5sum)
      (fun _ _ => rfl) l {}]
    simp only [Bool.false_or]
    exact List.any_eq_true.mpr ⟨swc, hm, hs⟩
  · rintro ⟨swc, hm, hs⟩
    unfold statOf
    rw [(ensure_least_keeps _).2.1]
    unfold statAccum
    rw [statFold_field (fun s => s.sha1sum) (fun s => s.sha1sum)
      (fun _ _ => rfl) l {}]
    simp only [Bool.false_or]
    exact List.any_eq_true.mpr ⟨swc, hm, hs⟩
  · rintro ⟨swc, hm, hs⟩
    unfold statOf
    rw [(ensure_least_keeps _).2.2.1]
    unfold statAccum
    rw [statFold_field (fun s => s.sha224sum) (fun s => s.sha224sum)
      (fun _ _ => rfl) l {}]
    simp only [Bool.false_or]
    exact List.any_eq_true.mpr ⟨swc, hm, hs⟩
  · rintro ⟨swc, hm, hs⟩
    unfold statOf
    apply ensure_least_sha256
    unfold statAccum
    rw [statFold_field (fun s => s.sha256sum) (fun s => s.sha256sum)
      (fun _ _ => rfl) l {}]
    simp only [Bool.false_or]
    exact List.any_eq_true.mpr ⟨swc, hm, hs⟩
  · rintro ⟨swc, hm, hs⟩
    unfold statOf
    rw [(ensure_least_keeps _).2.2.2.1]
    unfold statAccum
    rw [statFold_field (fun s => s.sha384sum) (fun s => s.sha384sum)
      (fun _ _ => rfl) l {}]
    simp only [Bool.false_or]
    exact List.any_eq_true.mpr ⟨swc, hm, hs⟩
  · rintro ⟨swc, hm, hs⟩
    unfold statOf
    rw [(ensure_least_keeps _).2.2.2.2.1]
    unfold statAccum
    rw [statFold_field (fun s => s.sha512sum) (fun s => s.sha512sum)
      (fun _ _ => rfl) l {}]
    simp only [Bool.false_or]
    exact List.any_eq_true.mpr ⟨swc, hm, hs⟩
  · rintro ⟨swc, hm, hs⟩
    unfold statOf
    rw [(ensure_least_keeps _).2.2.2.2.2.1]
    unfold statAccum
    rw [statFold_field (fun s => s.b2sum) (fun s => s.b2sum)
      (fun _ _ => rfl) l {}]
    simp only [Bool.false_or]
    exact List.any_eq_true.mpr ⟨swc, hm, hs⟩

/-- Claim C4 witness: the all-absent fallback at a concrete block of two
bare sources in an arch block produces one sha256sums SKIP line per
source. -/
theorem srcinfo_skip_fallback_witness :
    write_all_checksums
        (statOf [{ source := parseSource (str "a") },
          { source := parseSource (str "b") }])
        (str "x86_64")
        [{ source := parseSource (str "a") },
          { source := parseSource (str "b") }] =
      [{ source := parseSource (str "a") },
          ({ source := parseSource (str "b") } : SourceWithChecksum)].map
        fun _ =>
          '\t' :: (str "sha256sums" ++ suffixFromArchName (str "x86_64") ++
            str " = " ++ str "SKIP") :=
  (srcinfo_checksum_line_guarantee
    [{ source := parseSource (str "a") },
      { source := parseSource (str "b") }] (str "x86_64")).1
    (by decide)

/-! # Lemmas for the source round trip -/

theorem not_mem_of_all {p : Char → Bool} {c : Char} {s : List Char}
    (h : s.all p = true) (hc : p c = false) : c ∉ s := by
  intro hm
  have hx := List.all_eq_true.mp h c hm
  rw [hc] at hx
  exact Bool.noConfusion hx

theorem not_mem_append3 {c : Char} {a b d : List Char}
    (h1 : c ∉ a) (h2 : c ∉ b) (h3 : c ∉ d) : c ∉ a ++ b ++ d := by
  simp only [List.mem_append, not_or]
  exact ⟨⟨h1, h2⟩, h3⟩

theorem not_mem_fragpart {c : Char} {t v : List Char}
    (h1 : c ≠ '#') (h2 : c ∉ t) (h3 : c ≠ '=') (h4 : c ∉ v) :
    c ∉ '#' :: (t ++ '=' :: v) := by
  simp only [List.mem_cons, List.mem_append, not_or]
  exact ⟨h1, h2, h3, h4⟩

theorem splitOnceSub_pair_sep {c : Char} {a b : List Char}
    (ha : c ∉ a) (hb : c ∉ b) : splitOnceSub [c, c] (a ++ c :: b) = none := by
  induction a with
  | nil =>
    simp only [List.nil_append]
    rw [splitOnceSub_cons]
    have h1 : startsWith [c, c] (c :: b) = false := by
      cases b with
      | nil => simp [startsWith]
      | cons x t =>
        simp only [List.mem_cons, not_or] at hb
        simp [startsWith, hb.1]
    simp [h1, splitOnceSub_head_none hb]
  | cons x t ih =>
    simp only [List.mem_cons, not_or] at ha
    rw [List.cons_append, splitOnceSub_cons]
    have h1 : startsWith [c, c] (x :: (t ++ c :: b)) = false := by
      simp [startsWith, ha.1]
    simp [h1, ih ha.2]

theorem split_url_fragment_none {url : List Char} (h : '#' ∉ url) :
    split_url_fragment url = none := by
  simp [split_url_fragment, splitOnceChar_eq_none h]

theorem split_url_fragment_no_query_none {url : List Char} (h : '#' ∉ url) :
    split_url_fragment_no_query url = none := by
  simp [split_url_fragment_no_query, splitOnceChar_eq_none h]

theorem split_url_fragment_append (url t v : List Char)
    (h1 : '#' ∉ url) (h2 : '=' ∉ t) :
    split_url_fragment (url ++ '#' :: (t ++ '=' :: v)) = some (url, t, v) := by
  simp [split_url_fragment, splitOnceChar_append _ h1, splitOnceChar_append _ h2]

theorem split_url_fragment_no_query_append (url t v : List Char)
    (h1 : '#' ∉ url) (hqu : '?' ∉ url) (h2 : '=' ∉ t)
    (hqt : '?' ∉ t) (hqv : '?' ∉ v) :
    split_url_fragment_no_query (url ++ '#' :: (t ++ '=' :: v)) =
      some (url, t, v) := by
  have hqf : '?' ∉ t ++ '=' :: v := by
    simp only [List.mem_append, List.mem_cons, not_or]
    exact ⟨hqt, by decide, hqv⟩
  simp [split_url_fragment_no_query, splitOnceChar_append _ h1,
    splitOnceChar_eq_none hqf, splitOnceChar_append _ h2,
    splitOnceChar_eq_none hqu]

theorem bzrFragmentFromUrl_none {url : List Char} (h : '#' ∉ url) :
    bzrFragmentFromUrl url = (url, none) := by
  simp [bzrFragmentFromUrl, split_url_fragment_none h]

theorem fossilFragmentFromUrl_none {url : List Char} (h : '#' ∉ url) :
    fossilFragmentFromUrl url = (url, none) := by
  simp [fossilFragmentFromUrl, split_url_fragment_none h]

theorem gitFragmentFromUrl_none {url : List Char} (h : '#' ∉ url) :
    gitFragmentFromUrl url = (url, none) := by
  simp [gitFragmentFromUrl, split_url_fragment_no_query_none h]

theorem hgFragmentFromUrl_none {url : List Char} (h : '#' ∉ url) :
    hgFragmentFromUrl url = (url, none) := by
  simp [hgFragmentFromUrl, split_url_fragment_none h]

theorem svnFragmentFromUrl_none {url : List Char} (h : '#' ∉ url) :
    svnFragmentFromUrl url = (url, none) := by
  simp [svnFragmentFromUrl, split_url_fragment_none h]

theorem bzrFragmentFromUrl_frag (url v : List Char) (h1 : '#' ∉ url) :
    bzrFragmentFromUrl (url ++ '#' :: (str "revision" ++ '=' :: v)) =
      (url, some (.revision v)) := by
  rw [bzrFragmentFromUrl,
    split_url_fragment_append url (str "revision") v h1 (by decide)]
  simp

theorem fossilFragmentFromUrl_frag (url t v : List Char)
    (fr : FossilSourceFragment) (h1 : '#' ∉ url)
    (ht : t = str "branch" ∧ fr = FossilSourceFragment.branch v ∨
      t = str "commit" ∧ fr = FossilSourceFragment.commit v ∨
      t = str "tag" ∧ fr = FossilSourceFragment.tag v) :
    fossilFragmentFromUrl (url ++ '#' :: (t ++ '=' :: v)) =
      (url, some fr) := by
  rcases ht with ⟨rfl, rfl⟩ | ⟨rfl, rfl⟩ | ⟨rfl, rfl⟩ <;>
    (rw [fossilFragmentFromUrl,
      split_url_fragment_append url _ v h1 (by decide)]
     simp +decide)

theorem gitFragmentFromUrl_frag (url t v : List Char)
    (fr : GitSourceFragment) (h1 : '#' ∉ url) (hqu : '?' ∉ url)
    (hqv : '?' ∉ v)
    (ht : t = str "branch" ∧ fr = GitSourceFragment.branch v ∨
      t = str "commit" ∧ fr = GitSourceFragment.commit v ∨
      t = str "tag" ∧ fr = GitSourceFragment.tag v) :
    gitFragmentFromUrl (url ++ '#' :: (t ++ '=' :: v)) =
      (url, some fr) := by
  rcases ht with ⟨rfl, rfl⟩ | ⟨rfl, rfl⟩ | ⟨rfl, rfl⟩ <;>
    (rw [gitFragmentFromUrl,
      split_url_fragment_no_query_append url _ v h1 hqu (by decide)
        (by decide) hqv]
     simp +decide)

theorem hgFragmentFromUrl_frag (url t v : List Char)
    (fr : HgSourceFragment) (h1 : '#' ∉ url)
    (ht : t = str "branch" ∧ fr = HgSourceFragment.branch v ∨
      t = str "revision" ∧ fr = HgSourceFragment.revision v ∨
      t = str "tag" ∧ fr = HgSourceFragment.tag v) :
    hgFragmentFromUrl (url ++ '#' :: (t ++ '=' :: v)) =
      (url, some fr) := by
  rcases ht with ⟨rfl, rfl⟩ | ⟨rfl, rfl⟩ | ⟨rfl, rfl⟩ <;>
    (rw [hgFragmentFromUrl,
      split_url_fragment_append url _ v h1 (by decide)]
     simp +decide)

theorem svnFragmentFromUrl_frag (url v : List Char) (h1 : '#' ∉ url) :
    svnFragmentFromUrl (url ++ '#' :: (str "revision" ++ '=' :: v)) =
      (url, some (.revision v)) := by
  rw [svnFragmentFromUrl,
    split_url_fragment_append url (str "revision") v h1 (by decide)]
  simp

theorem pfs_file (u : List Char) :
    protocolFromScheme (str "file") u = (SourceProtocol.file, u) := by
  unfold protocolFromScheme
  rw [if_pos rfl]

theorem pfs_ftp (u : List Char) :
    protocolFromScheme (str "ftp") u = (SourceProtocol.ftp, u) := by
  unfold protocolFromScheme
  rw [if_neg (by decide), if_pos rfl]

theorem pfs_http (u : List Char) :
    protocolFromScheme (str "http") u = (SourceProtocol.http, u) := by
  unfold protocolFromScheme
  rw [if_neg (by decide), if_neg (by decide), if_pos rfl]

theorem pfs_https (u : List Char) :
    protocolFromScheme (str "https") u = (SourceProtocol.https, u) := by
  unfold protocolFromScheme
  rw [if_neg (by decide), if_neg (by decide), if_neg (by decide),
    if_pos rfl]

theorem pfs_rsync (u : List Char) :
    protocolFromScheme (str "rsync") u = (SourceProtocol.rsync, u) := by
  unfold protocolFromScheme
  rw [if_neg (by decide), if_neg (by decide), if_neg (by decide),
    if_neg (by decide), if_pos rfl]

theorem pfs_bzr (u : List Char) :
    protocolFromScheme (str "bzr") u =
      (SourceProtocol.bzr (bzrFragmentFromUrl u).2,
        (bzrFragmentFromUrl u).1) := by
  unfold protocolFromScheme
  rw [if_neg (by decide), if_neg (by decide), if_neg (by decide),
    if_neg (by decide), if_neg (by decide), if_pos rfl]

theorem pfs_fossil (u : List Char) :
    protocolFromScheme (str "fossil") u =
      (SourceProtocol.fossil (fossilFragmentFromUrl u).2,
        (fossilFragmentFromUrl u).1) := by
  unfold protocolFromScheme
  rw [if_neg (by decide), if_neg (by decide), if_neg (by decide),
    if_neg (by decide), if_neg (by decide), if_neg (by decide),
    if_pos rfl]

theorem pfs_git (u : List Char) :
    protocolFromScheme (str "git") u =
      (SourceProtocol.git (gitFragmentFromUrl u).2
          (containsSub (str "?signed") (gitFragmentFromUrl u).1),
        (gitFragmentFromUrl u).1) := by
  unfold protocolFromScheme
  rw [if_neg (by decide), if_neg (by decide), if_neg (by decide),
    if_neg (by decide), if_neg (by decide), if_neg (by decide),
    if_neg (by decide), if_pos rfl]

theorem pfs_hg (u : List Char) :
    protocolFromScheme (str "hg") u =
      (SourceProtocol.hg (hgFragmentFromUrl u).2,
        (hgFragmentFromUrl u).1) := by
  unfold protocolFromScheme
  rw [if_neg (by decide), if_neg (by decide), if_neg (by decide),
    if_neg (by decide), if_neg (by decide), if_neg (by decide),
    if_neg (by decide), if_neg (by decide), if_pos rfl]

theorem pfs_svn (u : List Char) :
    protocolFromScheme (str "svn") u =
      (SourceProtocol.svn (svnFragmentFromUrl u).2,
        (svnFragmentFromUrl u).1) := by
  unfold protocolFromScheme
  rw [if_neg (by decide), if_neg (by decide), if_neg (by decide),
    if_neg (by decide), if_neg (by decide), if_neg (by decide),
    if_neg (by decide), if_neg (by decide), if_neg (by decide),
    if_pos rfl]

theorem pfs_unknown (p u : List Char) (h : knownScheme p = false) :
    protocolFromScheme p u = (SourceProtocol.unknown, u) := by
  simp only [knownScheme, Bool.or_eq_false_iff,
    decide_eq_false_iff_not] at h
  obtain ⟨⟨⟨⟨⟨⟨⟨⟨⟨h1, h2⟩, h3⟩, h4⟩, h5⟩, h6⟩, h7⟩, h8⟩, h9⟩, h10⟩ := h
  unfold protocolFromScheme
  rw [if_neg h1, if_neg h2, if_neg h3, if_neg h4, if_neg h5, if_neg h6,
    if_neg h7, if_neg h8, if_neg h9, if_neg h10]

theorem urlOk_elim {url : List Char} (h : urlOk url = true) :
    ∃ p0 r, url = p0 ++ str "://" ++ r ∧
      p0.all Char.isAlphanum = true ∧ r.all plainChar = true := by
  unfold urlOk at h
  cases h1 : splitOnceSub (str "://") url with
  | none =>
    simp only [h1] at h
    exact Bool.noConfusion h
  | some prr =>
    obtain ⟨p, rr⟩ := prr
    simp only [h1, Bool.and_eq_true] at h
    obtain ⟨hs, hr⟩ := h
    simp only [schemeOk, Bool.and_eq_true] at hs
    exact ⟨p, rr, splitOnceSub_eq_some h1, hs.2, hr⟩

theorem urlOkUnknown_elim {url : List Char} (h : urlOkUnknown url = true) :
    ∃ p0 r, url = p0 ++ str "://" ++ r ∧
      p0.all Char.isAlphanum = true ∧ r.all plainChar = true ∧
      knownScheme p0 = false := by
  unfold urlOkUnknown at h
  cases h1 : splitOnceSub (str "://") url with
  | none =>
    simp only [h1] at h
    exact Bool.noConfusion h
  | some prr =>
    obtain ⟨p, rr⟩ := prr
    simp only [h1, Bool.and_eq_true] at h
    obtain ⟨⟨hs, hr⟩, hk⟩ := h
    simp only [schemeOk, Bool.and_eq_true] at hs
    have hk2 : knownScheme p = false := by
      revert hk
      cases knownScheme p <;> simp
    exact ⟨p, rr, splitOnceSub_eq_some h1, hs.2, hr, hk2⟩

theorem wf_alias_nonempty {name url : List Char} {pr : SourceProtocol}
    (hnn : (!name.isEmpty || name == get_url_name ⟨name, url, pr⟩) = true)
    (hal : urlNameOf url pr ≠ name) : name.isEmpty = false := by
  cases he : name.isEmpty
  · rfl
  · rw [he] at hnn
    simp only [Bool.not_true, Bool.false_or, beq_iff_eq] at hnn
    exact absurd hnn.symm hal

theorem parse_core_local (t : List Char) (hct : ':' ∉ t) :
    splitOnceSub (str "::") t = none ∧
      parseSource t =
        ⟨urlNameOf t SourceProtocol.localPath, t,
          SourceProtocol.localPath⟩ := by
  have h0 : splitOnceSub (str "::") t = none := by
    rw [show str "::" = ':' :: str ":" from by decide]
    exact splitOnceSub_head_none hct
  have h1 : splitOnceSub (str "://") t = none := by
    rw [show str "://" = ':' :: str "//" from by decide]
    exact splitOnceSub_head_none hct
  refine ⟨h0, ?_⟩
  simp only [parseSource, h0, h1, get_url_name]
  simp

theorem parse_core_noplus (url p0 r frag : List Char) (pr : SourceProtocol)
    (u : List Char)
    (hurl : url = p0 ++ str "://" ++ r)
    (hcp : ':' ∉ p0) (hplusp : '+' ∉ p0)
    (hcr : ':' ∉ r) (hcf : ':' ∉ frag)
    (hps : protocolFromScheme p0 (url ++ frag) = (pr, u)) :
    splitOnceSub (str "::") (url ++ frag) = none ∧
      parseSource (url ++ frag) = ⟨urlNameOf u pr, u, pr⟩ := by
  have hshape : url ++ frag = p0 ++ ':' :: ('/' :: '/' :: (r ++ frag)) := by
    rw [hurl, show str "://" = ':' :: '/' :: '/' :: [] from by decide]
    simp
  have h0 : splitOnceSub (str "::") (url ++ frag) = none := by
    rw [hshape, show str "::" = [':', ':'] from by decide]
    refine splitOnceSub_pair_sep hcp ?_
    simp only [List.mem_cons, List.mem_append, not_or]
    exact ⟨by decide, by decide, hcr, hcf⟩
  have h1 : splitOnceSub (str "://") (url ++ frag) = some (p0, r ++ frag) := by
    have hsh2 : url ++ frag = p0 ++ (':' :: str "//") ++ (r ++ frag) := by
      rw [hurl, show str "://" = ':' :: str "//" from by decide]
      simp
    rw [show str "://" = ':' :: str "//" from by decide, hsh2]
    exact splitOnceSub_boundary (r ++ frag) hcp
  have h2 : splitOnceChar '+' p0 = none := splitOnceChar_eq_none hplusp
  refine ⟨h0, ?_⟩
  simp only [parseSource, h0, h1, h2, hps, get_url_name]
  simp

theorem parse_core_plus (pA url p0 r frag : List Char) (pr : SourceProtocol)
    (u : List Char)
    (hurl : url = p0 ++ str "://" ++ r)
    (hcp : ':' ∉ p0)
    (hcr : ':' ∉ r) (hcf : ':' ∉ frag)
    (hcA : ':' ∉ pA) (hplusA : '+' ∉ pA)
    (hps : protocolFromScheme pA (url ++ frag) = (pr, u)) :
    splitOnceSub (str "::") (pA ++ '+' :: (url ++ frag)) = none ∧
      parseSource (pA ++ '+' :: (url ++ frag)) = ⟨urlNameOf u pr, u, pr⟩ := by
  have hcap : ':' ∉ pA ++ '+' :: p0 := by
    simp only [List.mem_append, List.mem_cons, not_or]
    exact ⟨hcA, by decide, hcp⟩
  have hshape : pA ++ '+' :: (url ++ frag) =
      (pA ++ '+' :: p0) ++ ':' :: ('/' :: '/' :: (r ++ frag)) := by
    rw [hurl, show str "://" = ':' :: '/' :: '/' :: [] from by decide]
    simp
  have h0 : splitOnceSub (str "::") (pA ++ '+' :: (url ++ frag)) = none := by
    rw [hshape, show str "::" = [':', ':'] from by decide]
    refine splitOnceSub_pair_sep hcap ?_
    simp only [List.mem_cons, List.mem_append, not_or]
    exact ⟨by decide, by decide, hcr, hcf⟩
  have h1 : splitOnceSub (str "://") (pA ++ '+' :: (url ++ frag)) =
      some (pA ++ '+' :: p0, r ++ frag) := by
    have hsh2 : pA ++ '+' :: (url ++ frag) =
        (pA ++ '+' :: p0) ++ (':' :: str "//") ++ (r ++ frag) := by
      rw [hurl, show str "://" = ':' :: str "//" from by decide]
      simp
    rw [show str "://" = ':' :: str "//" from by decide, hsh2]
    exact splitOnceSub_boundary (r ++ frag) hcap
  have h2 : splitOnceChar '+' (pA ++ '+' :: p0) = some (pA, p0) :=
    splitOnceChar_append p0 hplusA
  have h3 : (pA ++ '+' :: (url ++ frag)).drop (pA.length + 1) = url ++ frag :=
    drop_append_cons pA '+' (url ++ frag)
  refine ⟨h0, ?_⟩
  simp only [parseSource, h0, h1, h2, h3, hps, get_url_name]
  simp

theorem parse_with_alias (n t m u : List Char) (pr : SourceProtocol)
    (hne : n.isEmpty = false) (hcn : ':' ∉ n)
    (h0 : splitOnceSub (str "::") t = none)
    (h : parseSource t = ⟨m, u, pr⟩) :
    parseSource (n ++ str "::" ++ t) = ⟨n, u, pr⟩ := by
  have halias : splitOnceSub (str "::") (n ++ str "::" ++ t) = some (n, t) := by
    rw [show str "::" = ':' :: str ":" from by decide]
    exact splitOnceSub_boundary t hcn
  have hu : (parseSource t).url = u := by rw [h]
  have hp : (parseSource t).protocol = pr := by rw [h]
  unfold parseSource at hu hp ⊢
  rw [h0] at hu hp
  rw [halias]
  simp only [apply_ite Source.url, apply_ite Source.protocol,
    ite_self] at hu hp
  dsimp only at hu hp ⊢
  rw [hu, hp]
  simp [hne]

theorem roundtrip_remote (name url p0 r frag pact : List Char)
    (pr : SourceProtocol)
    (hurl : url = p0 ++ str "://" ++ r)
    (hcp : ':' ∉ p0) (hplusp : '+' ∉ p0)
    (hcr : ':' ∉ r) (hcf : ':' ∉ frag) (hcn : ':' ∉ name)
    (hcA : ':' ∉ pact) (hplusA : '+' ∉ pact)
    (hps : protocolFromScheme pact (url ++ frag) = (pr, url))
    (hne : urlNameOf url pr ≠ name → name.isEmpty = false) :
    parseSource
        ((if urlNameOf url pr ≠ name then name ++ str "::" else []) ++
          (if pact ≠ p0 then pact ++ ['+'] else []) ++ url ++ frag ++ []) =
      ⟨name, url, pr⟩ := by
  by_cases hpp : pact = p0
  · subst hpp
    rw [if_neg (show ¬(pact ≠ pact) from fun hh => hh rfl)]
    by_cases hal : urlNameOf url pr = name
    · rw [if_neg (show ¬(urlNameOf url pr ≠ name) from fun hh => hh hal)]
      rw [show ([] : List Char) ++ ([] : List Char) ++ url ++ frag ++
            ([] : List Char) = url ++ frag from by simp]
      rw [(parse_core_noplus url pact r frag pr url hurl hcp hplusp hcr
        hcf hps).2, hal]
    · have hne2 := hne hal
      rw [if_pos hal]
      have hcore := parse_core_noplus url pact r frag pr url hurl hcp
        hplusp hcr hcf hps
      rw [show (name ++ str "::") ++ ([] : List Char) ++ url ++ frag ++
            ([] : List Char) = name ++ str "::" ++ (url ++ frag) from
          by simp]
      exact parse_with_alias name (url ++ frag) _ url pr hne2 hcn
        hcore.1 hcore.2
  · rw [if_pos (show pact ≠ p0 from hpp)]
    by_cases hal : urlNameOf url pr = name
    · rw [if_neg (show ¬(urlNameOf url pr ≠ name) from fun hh => hh hal)]
      rw [show ([] : List Char) ++ (pact ++ ['+']) ++ url ++ frag ++
            ([] : List Char) = pact ++ '+' :: (url ++ frag) from by simp]
      rw [(parse_core_plus pact url p0 r frag pr url hurl hcp hcr hcf
        hcA hplusA hps).2, hal]
    · have hne2 := hne hal
      rw [if_pos hal]
      have hcore := parse_core_plus pact url p0 r frag pr url hurl hcp
        hcr hcf hcA hplusA hps
      rw [show (name ++ str "::") ++ (pact ++ ['+']) ++ url ++ frag ++
            ([] : List Char) = name ++ str "::" ++
              (pact ++ '+' :: (url ++ frag)) from by simp]
      exact parse_with_alias name (pact ++ '+' :: (url ++ frag)) _ url pr
        hne2 hcn hcore.1 hcore.2

theorem roundtrip_remote_noplus (name url p0 r : List Char)
    (pr : SourceProtocol)
    (hurl : url = p0 ++ str "://" ++ r)
    (hcp : ':' ∉ p0) (hplusp : '+' ∉ p0)
    (hcr : ':' ∉ r) (hcn : ':' ∉ name)
    (hps : protocolFromScheme p0 (url ++ []) = (pr, url))
    (hne : urlNameOf url pr ≠ name → name.isEmpty = false) :
    parseSource
        ((if urlNameOf url pr ≠ name then name ++ str "::" else []) ++
          ([] : List Char) ++ url ++ ([] : List Char) ++ []) =
      ⟨name, url, pr⟩ := by
  have hcore := parse_core_noplus url p0 r [] pr url hurl hcp hplusp hcr
    (by simp) hps
  by_cases hal : urlNameOf url pr = name
  · rw [if_neg (show ¬(urlNameOf url pr ≠ name) from fun hh => hh hal)]
    rw [show ([] : List Char) ++ ([] : List Char) ++ url ++
          ([] : List Char) ++ ([] : List Char) = url ++ [] from by simp]
    rw [hcore.2, hal]
  · have hne2 := hne hal
    rw [if_pos (show urlNameOf url pr ≠ name from hal)]
    rw [show (name ++ str "::") ++ ([] : List Char) ++ url ++
          ([] : List Char) ++ ([] : List Char) =
        name ++ str "::" ++ (url ++ []) from by simp]
    exact parse_with_alias name (url ++ []) _ url pr hne2 hcn
      hcore.1 hcore.2

theorem roundtrip_local (name t : List Char)
    (hct : ':' ∉ t) (hcn : ':' ∉ name)
    (hne : urlNameOf t SourceProtocol.localPath ≠ name →
      name.isEmpty = false) :
    parseSource
        ((if urlNameOf t SourceProtocol.localPath ≠ name then
            name ++ str "::" else []) ++
          ([] : List Char) ++ t ++ ([] : List Char) ++ []) =
      ⟨name, t, SourceProtocol.localPath⟩ := by
  have hcore := parse_core_local t hct
  by_cases hal : urlNameOf t SourceProtocol.localPath = name
  · rw [if_neg (show ¬(urlNameOf t SourceProtocol.localPath ≠ name) from
      fun hh => hh hal)]
    rw [show ([] : List Char) ++ ([] : List Char) ++ t ++
          ([] : List Char) ++ ([] : List Char) = t from by simp]
    rw [hcore.2, hal]
  · have hne2 := hne hal
    rw [if_pos (show urlNameOf t SourceProtocol.localPath ≠ name from hal)]
    rw [show (name ++ str "::") ++ ([] : List Char) ++ t ++
          ([] : List Char) ++ ([] : List Char) =
        name ++ str "::" ++ t from by simp]
    exact parse_with_alias name t _ t SourceProtocol.localPath hne2 hcn
      hcore.1 hcore.2

theorem roundtrip_wf (s : Source) (h : sourceWF s = true) :
    parseSource (get_pkgbuild_source s) = s := by
  obtain ⟨name, url, proto⟩ := s
  simp only [sourceWF, Bool.and_eq_true] at h
  obtain ⟨⟨⟨hname, hnn⟩, hfv⟩, hpr⟩ := h
  have hcn : ':' ∉ name := not_mem_of_all hname (by decide)
  cases proto with
  | localPath =>
    have hurlp : url.all plainChar = true := hpr
    have hcu : ':' ∉ url := not_mem_of_all hurlp (by decide)
    unfold get_pkgbuild_source
    dsimp only [get_url_name, get_proto_str, fragTV]
    exact roundtrip_local name url hcu hcn (wf_alias_nonempty hnn)
  | unknown =>
    have hi : urlOkUnknown url = true := hpr
    obtain ⟨p0, r, hurl, hp0a, hra, hks⟩ := urlOkUnknown_elim hi
    have hcp : ':' ∉ p0 := not_mem_of_all hp0a (by decide)
    have hplusp : '+' ∉ p0 := not_mem_of_all hp0a (by decide)
    have hcr : ':' ∉ r := not_mem_of_all hra (by decide)
    have hps : protocolFromScheme p0 (url ++ []) =
        (SourceProtocol.unknown, url) := by
      rw [List.append_nil]
      exact pfs_unknown p0 url hks
    unfold get_pkgbuild_source
    dsimp only [get_url_name, get_proto_str, fragTV]
    exact roundtrip_remote_noplus name url p0 r SourceProtocol.unknown
      hurl hcp hplusp hcr hcn hps (wf_alias_nonempty hnn)
  | file =>
    have hi : urlOk url = true := hpr
    obtain ⟨p0, r, hurl, hp0a, hra⟩ := urlOk_elim hi
    have hcp : ':' ∉ p0 := not_mem_of_all hp0a (by decide)
    have hplusp : '+' ∉ p0 := not_mem_of_all hp0a (by decide)
    have hcr : ':' ∉ r := not_mem_of_all hra (by decide)
    have hsp : splitOnceSub (str "://") url = some (p0, r) := by
      rw [hurl, show str "://" = ':' :: str "//" from by decide]
      exact splitOnceSub_boundary r hcp
    have hps : protocolFromScheme (str "file") (url ++ []) =
        (SourceProtocol.file, url) := by
      rw [List.append_nil]
      exact pfs_file url
    unfold get_pkgbuild_source
    dsimp only [get_url_name, get_proto_str, fragTV]
    simp only [hsp]
    exact roundtrip_remote name url p0 r [] (str "file")
      SourceProtocol.file hurl hcp hplusp hcr (by simp) hcn (by decide)
      (by decide) hps (wf_alias_nonempty hnn)
  | ftp =>
    have hi : urlOk url = true := hpr
    obtain ⟨p0, r, hurl, hp0a, hra⟩ := urlOk_elim hi
    have hcp : ':' ∉ p0 := not_mem_of_all hp0a (by decide)
    have hplusp : '+' ∉ p0 := not_mem_of_all hp0a (by decide)
    have hcr : ':' ∉ r := not_mem_of_all hra (by decide)
    have hsp : splitOnceSub (str "://") url = some (p0, r) := by
      rw [hurl, show str "://" = ':' :: str "//" from by decide]
      exact splitOnceSub_boundary r hcp
    have hps : protocolFromScheme (str "ftp") (url ++ []) =
        (SourceProtocol.ftp, url) := by
      rw [List.append_nil]
      exact pfs_ftp url
    unfold get_pkgbuild_source
    dsimp only [get_url_name, get_proto_str, fragTV]
    simp only [hsp]
    exact roundtrip_remote name url p0 r [] (str "ftp")
      SourceProtocol.ftp hurl hcp hplusp hcr (by simp) hcn (by decide)
      (by decide) hps (wf_alias_nonempty hnn)
  | http =>
    have hi : urlOk url = true := hpr
    obtain ⟨p0, r, hurl, hp0a, hra⟩ := urlOk_elim hi
    have hcp : ':' ∉ p0 := not_mem_of_all hp0a (by decide)
    have hplusp : '+' ∉ p0 := not_mem_of_all hp0a (by decide)
    have hcr : ':' ∉ r := not_mem_of_all hra (by decide)
    have hsp : splitOnceSub (str "://") url = some (p0, r) := by
      rw [hurl, show str "://" = ':' :: str "//" from by decide]
      exact splitOnceSub_boundary r hcp
    have hps : protocolFromScheme (str "http") (url ++ []) =
        (SourceProtocol.http, url) := by
      rw [List.append_nil]
      exact pfs_http url
    unfold get_pkgbuild_source
    dsimp only [get_url_name, get_proto_str, fragTV]
    simp only [hsp]
    exact roundtrip_remote name url p0 r [] (str "http")
      SourceProtocol.http hurl hcp hplusp hcr (by simp) hcn (by decide)
      (by decide) hps (wf_alias_nonempty hnn)
  | https =>
    have hi : urlOk url = true := hpr
    obtain ⟨p0, r, hurl, hp0a, hra⟩ := urlOk_elim hi
    have hcp : ':' ∉ p0 := not_mem_of_all hp0a (by decide)
    have hplusp : '+' ∉ p0 := not_mem_of_all hp0a (by decide)
    have hcr : ':' ∉ r := not_mem_of_all hra (by decide)
    have hsp : splitOnceSub (str "://") url = some (p0, r) := by
      rw [hurl, show str "://" = ':' :: str "//" from by decide]
      exact splitOnceSub_boundary r hcp
    have hps : protocolFromScheme (str "https") (url ++ []) =
        (SourceProtocol.https, url) := by
      rw [List.append_nil]
      exact pfs_https url
    unfold get_pkgbuild_source
    dsimp only [get_url_name, get_proto_str, fragTV]
    simp only [hsp]
    exact roundtrip_remote name url p0 r [] (str "https")
      SourceProtocol.https hurl hcp hplusp hcr (by simp) hcn (by decide)
      (by decide) hps (wf_alias_nonempty hnn)
  | rsync =>
    have hi : urlOk url = true := hpr
    obtain ⟨p0, r, hurl, hp0a, hra⟩ := urlOk_elim hi
    have hcp : ':' ∉ p0 := not_mem_of_all hp0a (by decide)
    have hplusp : '+' ∉ p0 := not_mem_of_all hp0a (by decide)
    have hcr : ':' ∉ r := not_mem_of_all hra (by decide)
    have hsp : splitOnceSub (str "://") url = some (p0, r) := by
      rw [hurl, show str "://" = ':' :: str "//" from by decide]
      exact splitOnceSub_boundary r hcp
    have hps : protocolFromScheme (str "rsync") (url ++ []) =
        (SourceProtocol.rsync, url) := by
      rw [List.append_nil]
      exact pfs_rsync url
    unfold get_pkgbuild_source
    dsimp only [get_url_name, get_proto_str, fragTV]
    simp only [hsp]
    exact roundtrip_remote name url p0 r [] (str "rsync")
      SourceProtocol.rsync hurl hcp hplusp hcr (by simp) hcn (by decide)
      (by decide) hps (wf_alias_nonempty hnn)
  | bzr fr =>
    have hi : urlOk url = true := hpr
    obtain ⟨p0, r, hurl, hp0a, hra⟩ := urlOk_elim hi
    have hcp : ':' ∉ p0 := not_mem_of_all hp0a (by decide)
    have hplusp : '+' ∉ p0 := not_mem_of_all hp0a (by decide)
    have hcr : ':' ∉ r := not_mem_of_all hra (by decide)
    have hhu : '#' ∉ url := by
      rw [hurl]
      exact not_mem_append3 (not_mem_of_all hp0a (by decide)) (by decide)
        (not_mem_of_all hra (by decide))
    have hsp : splitOnceSub (str "://") url = some (p0, r) := by
      rw [hurl, show str "://" = ':' :: str "//" from by decide]
      exact splitOnceSub_boundary r hcp
    cases fr with
    | none =>
      have hps : protocolFromScheme (str "bzr") (url ++ []) =
          (SourceProtocol.bzr none, url) := by
        rw [List.append_nil, pfs_bzr url, bzrFragmentFromUrl_none hhu]
      unfold get_pkgbuild_source
      dsimp only [get_url_name, get_proto_str, fragTV]
      simp only [hsp]
      exact roundtrip_remote name url p0 r [] (str "bzr")
        (SourceProtocol.bzr none) hurl hcp hplusp hcr (by simp) hcn
        (by decide) (by decide) hps (wf_alias_nonempty hnn)
    | some bf =>
      cases bf with
      | revision v =>
        have hfvv : v.all plainChar = true := hfv
        have hcv : ':' ∉ v := not_mem_of_all hfvv (by decide)
        have hps : protocolFromScheme (str "bzr")
            (url ++ '#' :: (str "revision" ++ '=' :: v)) =
            (SourceProtocol.bzr (some (BzrSourceFragment.revision v)),
              url) := by
          rw [pfs_bzr, bzrFragmentFromUrl_frag url v hhu]
        unfold get_pkgbuild_source
        dsimp only [get_url_name, get_proto_str, fragTV]
        simp only [hsp]
        exact roundtrip_remote name url p0 r
          ('#' :: (str "revision" ++ '=' :: v)) (str "bzr")
          (SourceProtocol.bzr (some (BzrSourceFragment.revision v)))
          hurl hcp hplusp hcr
          (not_mem_fragpart (by decide) (by decide) (by decide) hcv) hcn
          (by decide) (by decide) hps (wf_alias_nonempty hnn)
  | fossil fr =>
    have hi : urlOk url = true := hpr
    obtain ⟨p0, r, hurl, hp0a, hra⟩ := urlOk_elim hi
    have hcp : ':' ∉ p0 := not_mem_of_all hp0a (by decide)
    have hplusp : '+' ∉ p0 := not_mem_of_all hp0a (by decide)
    have hcr : ':' ∉ r := not_mem_of_all hra (by decide)
    have hhu : '#' ∉ url := by
      rw [hurl]
      exact not_mem_append3 (not_mem_of_all hp0a (by decide)) (by decide)
        (not_mem_of_all hra (by decide))
    have hsp : splitOnceSub (str "://") url = some (p0, r) := by
      rw [hurl, show str "://" = ':' :: str "//" from by decide]
      exact splitOnceSub_boundary r hcp
    cases fr with
    | none =>
      have hps : protocolFromScheme (str "fossil") (url ++ []) =
          (SourceProtocol.fossil none, url) := by
        rw [List.append_nil, pfs_fossil url, fossilFragmentFromUrl_none hhu]
      unfold get_pkgbuild_source
      dsimp only [get_url_name, get_proto_str, fragTV]
      simp only [hsp]
      exact roundtrip_remote name url p0 r [] (str "fossil")
        (SourceProtocol.fossil none) hurl hcp hplusp hcr (by simp) hcn
        (by decide) (by decide) hps (wf_alias_nonempty hnn)
    | some ff =>
      cases ff with
      | branch v =>
        have hfvv : v.all plainChar = true := hfv
        have hcv : ':' ∉ v := not_mem_of_all hfvv (by decide)
        have hps : protocolFromScheme (str "fossil")
            (url ++ '#' :: (str "branch" ++ '=' :: v)) =
            (SourceProtocol.fossil (some (FossilSourceFragment.branch v)),
              url) := by
          rw [pfs_fossil, fossilFragmentFromUrl_frag url (str "branch") v
            (FossilSourceFragment.branch v) hhu (Or.inl ⟨rfl, rfl⟩)]
        unfold get_pkgbuild_source
        dsimp only [get_url_name, get_proto_str, fragTV]
        simp only [hsp]
        exact roundtrip_remote name url p0 r
          ('#' :: (str "branch" ++ '=' :: v)) (str "fossil")
          (SourceProtocol.fossil (some (FossilSourceFragment.branch v)))
          hurl hcp hplusp hcr
          (not_mem_fragpart (by decide) (by decide) (by decide) hcv) hcn
          (by decide) (by decide) hps (wf_alias_nonempty hnn)
      | commit v =>
        have hfvv : v.all plainChar = true := hfv
        have hcv : ':' ∉ v := not_mem_of_all hfvv (by decide)
        have hps : protocolFromScheme (str "fossil")
            (url ++ '#' :: (str "commit" ++ '=' :: v)) =
            (SourceProtocol.fossil (some (FossilSourceFragment.commit v)),
              url) := by
          rw [pfs_fossil, fossilFragmentFromUrl_frag url (str "commit") v
            (FossilSourceFragment.commit v) hhu
            (Or.inr (Or.inl ⟨rfl, rfl⟩))]
        unfold get_pkgbuild_source
        dsimp only [get_url_name, get_proto_str, fragTV]
        simp only [hsp]
        exact roundtrip_remote name url p0 r
          ('#' :: (str "commit" ++ '=' :: v)) (str "fossil")
          (SourceProtocol.fossil (some (FossilSourceFragment.commit v)))
          hurl hcp hplusp hcr
          (not_mem_fragpart (by decide) (by decide) (by decide) hcv) hcn
          (by decide) (by decide) hps (wf_alias_nonempty hnn)
      | tag v =>
        have hfvv : v.all plainChar = true := hfv
        have hcv : ':' ∉ v := not_mem_of_all hfvv (by decide)
        have hps : protocolFromScheme (str "fossil")
            (url ++ '#' :: (str "tag" ++ '=' :: v)) =
            (SourceProtocol.fossil (some (FossilSourceFragment.tag v)),
              url) := by
          rw [pfs_fossil, fossilFragmentFromUrl_frag url (str "tag") v
            (FossilSourceFragment.tag v) hhu
            (Or.inr (Or.inr ⟨rfl, rfl⟩))]
        unfold get_pkgbuild_source
        dsimp only [get_url_name, get_proto_str, fragTV]
        simp only [hsp]
        exact roundtrip_remote name url p0 r
          ('#' :: (str "tag" ++ '=' :: v)) (str "fossil")
          (SourceProtocol.fossil (some (FossilSourceFragment.tag v)))
          hurl hcp hplusp hcr
          (not_mem_fragpart (by decide) (by decide) (by decide) hcv) hcn
          (by decide) (by decide) hps (wf_alias_nonempty hnn)
  | git fr sg =>
    cases sg with
    | true =>
      exact absurd (show (!true && urlOk url) = true from hpr) (by simp)
    | false =>
      have hi : urlOk url = true := by
        have h2 : (!false && urlOk url) = true := hpr
        simpa using h2
      obtain ⟨p0, r, hurl, hp0a, hra⟩ := urlOk_elim hi
      have hcp : ':' ∉ p0 := not_mem_of_all hp0a (by decide)
      have hplusp : '+' ∉ p0 := not_mem_of_all hp0a (by decide)
      have hcr : ':' ∉ r := not_mem_of_all hra (by decide)
      have hhu : '#' ∉ url := by
        rw [hurl]
        exact not_mem_append3 (not_mem_of_all hp0a (by decide)) (by decide)
          (not_mem_of_all hra (by decide))
      have hqu : '?' ∉ url := by
        rw [hurl]
        exact not_mem_append3 (not_mem_of_all hp0a (by decide)) (by decide)
          (not_mem_of_all hra (by decide))
      have hsigned : containsSub (str "?signed") url = false := by
        rw [show str "?signed" = '?' :: str "signed" from by decide]
        exact containsSub_eq_false hqu
      have hsp : splitOnceSub (str "://") url = some (p0, r) := by
        rw [hurl, show str "://" = ':' :: str "//" from by decide]
        exact splitOnceSub_boundary r hcp
      cases fr with
      | none =>
        have hps : protocolFromScheme (str "git") (url ++ []) =
            (SourceProtocol.git none false, url) := by
          rw [List.append_nil, pfs_git url, gitFragmentFromUrl_none hhu]
          simp [hsigned]
        unfold get_pkgbuild_source
        dsimp only [get_url_name, get_proto_str, fragTV]
        simp only [hsp]
        exact roundtrip_remote name url p0 r [] (str "git")
          (SourceProtocol.git none false) hurl hcp hplusp hcr (by simp)
          hcn (by decide) (by decide) hps (wf_alias_nonempty hnn)
      | some gf =>
        cases gf with
        | branch v =>
          have hfvv : v.all plainChar = true := hfv
          have hcv : ':' ∉ v := not_mem_of_all hfvv (by decide)
          have hqv : '?' ∉ v := not_mem_of_all hfvv (by decide)
          have hps : protocolFromScheme (str "git")
              (url ++ '#' :: (str "branch" ++ '=' :: v)) =
              (SourceProtocol.git (some (GitSourceFragment.branch v))
                false, url) := by
            rw [pfs_git, gitFragmentFromUrl_frag url (str "branch") v
              (GitSourceFragment.branch v) hhu hqu hqv
              (Or.inl ⟨rfl, rfl⟩)]
            simp [hsigned]
          unfold get_pkgbuild_source
          dsimp only [get_url_name, get_proto_str, fragTV]
          simp only [hsp]
          exact roundtrip_remote name url p0 r
            ('#' :: (str "branch" ++ '=' :: v)) (str "git")
            (SourceProtocol.git (some (GitSourceFragment.branch v)) false)
            hurl hcp hplusp hcr
            (not_mem_fragpart (by decide) (by decide) (by decide) hcv) hcn
            (by decide) (by decide) hps (wf_alias_nonempty hnn)
        | commit v =>
          have hfvv : v.all plainChar = true := hfv
          have hcv : ':' ∉ v := not_mem_of_all hfvv (by decide)
          have hqv : '?' ∉ v := not_mem_of_all hfvv (by decide)
          have hps : protocolFromScheme (str "git")
              (url ++ '#' :: (str "commit" ++ '=' :: v)) =
              (SourceProtocol.git (some (GitSourceFragment.commit v))
                false, url) := by
            rw [pfs_git, gitFragmentFromUrl_frag url (str "commit") v
              (GitSourceFragment.commit v) hhu hqu hqv
              (Or.inr (Or.inl ⟨rfl, rfl⟩))]
            simp [hsigned]
          unfold get_pkgbuild_source
          dsimp only [get_url_name, get_proto_str, fragTV]
          simp only [hsp]
          exact roundtrip_remote name url p0 r
            ('#' :: (str "commit" ++ '=' :: v)) (str "git")
            (SourceProtocol.git (some (GitSourceFragment.commit v)) false)
            hurl hcp hplusp hcr
            (not_mem_fragpart (by decide) (by decide) (by decide) hcv) hcn
            (by decide) (by decide) hps (wf_alias_nonempty hnn)
        | tag v =>
          have hfvv : v.all plainChar = true := hfv
          have hcv : ':' ∉ v := not_mem_of_all hfvv (by decide)
          have hqv : '?' ∉ v := not_mem_of_all hfvv (by decide)
          have hps : protocolFromScheme (str "git")
              (url ++ '#' :: (str "tag" ++ '=' :: v)) =
              (SourceProtocol.git (some (GitSourceFragment.tag v))
                false, url) := by
            rw [pfs_git, gitFragmentFromUrl_frag url (str "tag") v
              (GitSourceFragment.tag v) hhu hqu hqv
              (Or.inr (Or.inr ⟨rfl, rfl⟩))]
            simp [hsigned]
          unfold get_pkgbuild_source
          dsimp only [get_url_name, get_proto_str, fragTV]
          simp only [hsp]
          exact roundtrip_remote name url p0 r
            ('#' :: (str "tag" ++ '=' :: v)) (str "git")
            (SourceProtocol.git (some (GitSourceFragment.tag v)) false)
            hurl hcp hplusp hcr
            (not_mem_fragpart (by decide) (by decide) (by decide) hcv) hcn
            (by decide) (by decide) hps (wf_alias_nonempty hnn)
  | hg fr =>
    have hi : urlOk url = true := hpr
    obtain ⟨p0, r, hurl, hp0a, hra⟩ := urlOk_elim hi
    have hcp : ':' ∉ p0 := not_mem_of_all hp0a (by decide)
    have hplusp : '+' ∉ p0 := not_mem_of_all hp0a (by decide)
    have hcr : ':' ∉ r := not_mem_of_all hra (by decide)
    have hhu : '#' ∉ url := by
      rw [hurl]
      exact not_mem_append3 (not_mem_of_all hp0a (by decide)) (by decide)
        (not_mem_of_all hra (by decide))
    have hsp : splitOnceSub (str "://") url = some (p0, r) := by
      rw [hurl, show str "://" = ':' :: str "//" from by decide]
      exact splitOnceSub_boundary r hcp
    cases fr with
    | none =>
      have hps : protocolFromScheme (str "hg") (url ++ []) =
          (SourceProtocol.hg none, url) := by
        rw [List.append_nil, pfs_hg url, hgFragmentFromUrl_none hhu]
      unfold get_pkgbuild_source
      dsimp only [get_url_name, get_proto_str, fragTV]
      simp only [hsp]
      exact roundtrip_remote name url p0 r [] (str "hg")
        (SourceProtocol.hg none) hurl hcp hplusp hcr (by simp) hcn
        (by decide) (by decide) hps (wf_alias_nonempty hnn)
    | some hf =>
      cases hf with
      | branch v =>
        have hfvv : v.all plainChar = true := hfv
        have hcv : ':' ∉ v := not_mem_of_all hfvv (by decide)
        have hps : protocolFromScheme (str "hg")
            (url ++ '#' :: (str "branch" ++ '=' :: v)) =
            (SourceProtocol.hg (some (HgSourceFragment.branch v)),
              url) := by
          rw [pfs_hg, hgFragmentFromUrl_frag url (str "branch") v
            (HgSourceFragment.branch v) hhu (Or.inl ⟨rfl, rfl⟩)]
        unfold get_pkgbuild_source
        dsimp only [get_url_name, get_proto_str, fragTV]
        simp only [hsp]
        exact roundtrip_remote name url p0 r
          ('#' :: (str "branch" ++ '=' :: v)) (str "hg")
          (SourceProtocol.hg (some (HgSourceFragment.branch v)))
          hurl hcp hplusp hcr
          (not_mem_fragpart (by decide) (by decide) (by decide) hcv) hcn
          (by decide) (by decide) hps (wf_alias_nonempty hnn)
      | revision v =>
        have hfvv : v.all plainChar = true := hfv
        have hcv : ':' ∉ v := not_mem_of_all hfvv (by decide)
        have hps : protocolFromScheme (str "hg")
            (url ++ '#' :: (str "revision" ++ '=' :: v)) =
            (SourceProtocol.hg (some (HgSourceFragment.revision v)),
              url) := by
          rw [pfs_hg, hgFragmentFromUrl_frag url (str "revision") v
            (HgSourceFragment.revision v) hhu
            (Or.inr (Or.inl ⟨rfl, rfl⟩))]
        unfold get_pkgbuild_source
        dsimp only [get_url_name, get_proto_str, fragTV]
        simp only [hsp]
        exact roundtrip_remote name url p0 r
          ('#' :: (str "revision" ++ '=' :: v)) (str "hg")
          (SourceProtocol.hg (some (HgSourceFragment.revision v)))
          hurl hcp hplusp hcr
          (not_mem_fragpart (by decide) (by decide) (by decide) hcv) hcn
          (by decide) (by decide) hps (wf_alias_nonempty hnn)
      | tag v =>
        have hfvv : v.all plainChar = true := hfv
        have hcv : ':' ∉ v := not_mem_of_all hfvv (by decide)
        have hps : protocolFromScheme (str "hg")
            (url ++ '#' :: (str "tag" ++ '=' :: v)) =
            (SourceProtocol.hg (some (HgSourceFragment.tag v)),
              url) := by
          rw [pfs_hg, hgFragmentFromUrl_frag url (str "tag") v
            (HgSourceFragment.tag v) hhu (Or.inr (Or.inr ⟨rfl, rfl⟩))]
        unfold get_pkgbuild_source
        dsimp only [get_url_name, get_proto_str, fragTV]
        simp only [hsp]
        exact roundtrip_remote name url p0 r
          ('#' :: (str "tag" ++ '=' :: v)) (str "hg")
          (SourceProtocol.hg (some (HgSourceFragment.tag v)))
          hurl hcp hplusp hcr
          (not_mem_fragpart (by decide) (by decide) (by decide) hcv) hcn
          (by decide) (by decide) hps (wf_alias_nonempty hnn)
  | svn fr =>
    have hi : urlOk url = true := hpr
    obtain ⟨p0, r, hurl, hp0a, hra⟩ := urlOk_elim hi
    have hcp : ':' ∉ p0 := not_mem_of_all hp0a (by decide)
    have hplusp : '+' ∉ p0 := not_mem_of_all hp0a (by decide)
    have hcr : ':' ∉ r := not_mem_of_all hra (by decide)
    have hhu : '#' ∉ url := by
      rw [hurl]
      exact not_mem_append3 (not_mem_of_all hp0a (by decide)) (by decide)
        (not_mem_of_all hra (by decide))
    have hsp : splitOnceSub (str "://") url = some (p0, r) := by
      rw [hurl, show str "://" = ':' :: str "//" from by decide]
      exact splitOnceSub_boundary r hcp
    cases fr with
    | none =>
      have hps : protocolFromScheme (str "svn") (url ++ []) =
          (SourceProtocol.svn none, url) := by
        rw [List.append_nil, pfs_svn url, svnFragmentFromUrl_none hhu]
      unfold get_pkgbuild_source
      dsimp only [get_url_name, get_proto_str, fragTV]
      simp only [hsp]
      exact roundtrip_remote name url p0 r [] (str "svn")
        (SourceProtocol.svn none) hurl hcp hplusp hcr (by simp) hcn
        (by decide) (by decide) hps (wf_alias_nonempty hnn)
    | some sf =>
      cases sf with
      | revision v =>
        have hfvv : v.all plainChar = true := hfv
        have hcv : ':' ∉ v := not_mem_of_all hfvv (by decide)
        have hps : protocolFromScheme (str "svn")
            (url ++ '#' :: (str "revision" ++ '=' :: v)) =
            (SourceProtocol.svn (some (SvnSourceFragment.revision v)),
              url) := by
          rw [pfs_svn, svnFragmentFromUrl_frag url v hhu]
        unfold get_pkgbuild_source
        dsimp only [get_url_name, get_proto_str, fragTV]
        simp only [hsp]
        exact roundtrip_remote name url p0 r
          ('#' :: (str "revision" ++ '=' :: v)) (str "svn")
          (SourceProtocol.svn (some (SvnSourceFragment.revision v)))
          hurl hcp hplusp hcr
          (not_mem_fragpart (by decide) (by decide) (by decide) hcv) hcn
          (by decide) (by decide) hps (wf_alias_nonempty hnn)

/-! # Claims on the source round trip -/

/-- Claim C2, counterexample: a signed Git source obtained by parsing
does not survive the textual round trip: its stored url already ends in
the signed query, and the projection appends a second signed marker, so
the re-parse differs from the original. -/
theorem source_roundtrip_fails_for_signed_git :
    parseSource
        (get_pkgbuild_source (parseSource (str "git+https://h/r?signed"))) ≠
      parseSource (str "git+https://h/r?signed") := by decide

/-- Claim C2 amended: the round trip of parse, project with
get_pkgbuild_source, and re-parse is the identity on every parsed source
that is well formed in the sense of sourceWF: plain name, plain fragment
value, an ordinary remote URL (outside the known scheme set for Unknown,
plain local path for Local), and an unsigned Git; the companion
counterexample shows the restriction is necessary, a reachable signed
Git source breaks the round trip. -/
theorem source_roundtrip (e : List Char)
    (h : sourceWF (parseSource e) = true) :
    parseSource (get_pkgbuild_source (parseSource e)) = parseSource e :=
  roundtrip_wf (parseSource e) h

/-- Claim C2 witness: the round trip at a concrete well-formed Git
source entry with a tag fragment. -/
theorem source_roundtrip_witness :
    sourceWF (parseSource (str "git+https://github.com/x/y.git#tag=v1")) =
        true ∧
      parseSource (get_pkgbuild_source
          (parseSource (str "git+https://github.com/x/y.git#tag=v1"))) =
        parseSource (str "git+https://github.com/x/y.git#tag=v1") :=
  ⟨by decide,
    source_roundtrip (str "git+https://github.com/x/y.git#tag=v1")
      (by decide)⟩

/-! # Lemmas on the source entry parser -/

theorem splitOnceChar_none_not_mem {c : Char} {s : List Char}
    (h : splitOnceChar c s = none) : c ∉ s := by
  induction s with
  | nil => simp
  | cons x t ih =>
    by_cases hx : x = c
    · rw [hx] at h
      simp [splitOnceChar] at h
    · simp only [splitOnceChar, if_neg hx] at h
      cases ht : splitOnceChar c t with
      | some ab =>
        obtain ⟨a, b⟩ := ab
        simp only [ht] at h
        exact Option.noConfusion h
      | none =>
        simp only [List.mem_cons, not_or]
        exact ⟨fun hh => hx hh.symm, ih ht⟩

theorem split_url_fragment_no_query_some {url u k v : List Char}
    (h : split_url_fragment_no_query url = some (u, k, v)) : '?' ∉ u := by
  unfold split_url_fragment_no_query at h
  cases h1 : splitOnceChar '#' url with
  | none =>
    simp only [h1] at h
    exact Option.noConfusion h
  | some pf =>
    obtain ⟨pre0, frag0⟩ := pf
    simp only [h1] at h
    cases hq : splitOnceChar '?' frag0 with
    | none =>
      simp only [hq] at h
      cases h2 : splitOnceChar '=' frag0 with
      | none =>
        simp only [h2] at h
        exact Option.noConfusion h
      | some kv =>
        obtain ⟨k0, v0⟩ := kv
        simp only [h2] at h
        cases hp : splitOnceChar '?' pre0 with
        | none =>
          simp only [hp, Option.some.injEq, Prod.mk.injEq] at h
          rw [← h.1]
          exact splitOnceChar_none_not_mem hp
        | some ab =>
          obtain ⟨a, b⟩ := ab
          simp only [hp, Option.some.injEq, Prod.mk.injEq] at h
          rw [← h.1]
          exact (splitOnceChar_eq_some hp).2
    | some nf =>
      obtain ⟨nfragment, rest⟩ := nf
      simp only [hq] at h
      cases h2 : splitOnceChar '=' nfragment with
      | none =>
        simp only [h2] at h
        exact Option.noConfusion h
      | some kv =>
        obtain ⟨k0, v0⟩ := kv
        simp only [h2] at h
        cases hp : splitOnceChar '?' pre0 with
        | none =>
          simp only [hp, Option.some.injEq, Prod.mk.injEq] at h
          rw [← h.1]
          exact splitOnceChar_none_not_mem hp
        | some ab =>
          obtain ⟨a, b⟩ := ab
          simp only [hp, Option.some.injEq, Prod.mk.injEq] at h
          rw [← h.1]
          exact (splitOnceChar_eq_some hp).2

theorem gitFragmentFromUrl_signed_false {url u : List Char}
    {f : GitSourceFragment} (h : gitFragmentFromUrl url = (u, some f)) :
    containsSub (str "?signed") u = false := by
  unfold gitFragmentFromUrl at h
  cases h1 : split_url_fragment_no_query url with
  | none =>
    simp only [h1, Prod.mk.injEq] at h
    exact Option.noConfusion h.2
  | some ukv =>
    obtain ⟨u0, k, v⟩ := ukv
    have hq : '?' ∉ u0 := split_url_fragment_no_query_some h1
    simp only [h1] at h
    have hu : u = u0 := by
      split_ifs at h <;>
        (simp only [Prod.mk.injEq] at h; exact h.1.symm)
    rw [hu]
    have hss : str "?signed" = '?' :: str "signed" := by decide
    rw [hss]
    exact containsSub_eq_false hq

set_option maxHeartbeats 1600000 in
theorem protocolFromScheme_git_inv {pA uA v : List Char}
    {frag : Option GitSourceFragment} {sg : Bool}
    (h : protocolFromScheme pA uA = (SourceProtocol.git frag sg, v)) :
    gitFragmentFromUrl uA = (v, frag) ∧
      sg = containsSub (str "?signed") v := by
  unfold protocolFromScheme at h
  split_ifs at h
  all_goals simp only [Prod.mk.injEq] at h
  all_goals first
    | exact SourceProtocol.noConfusion h.1
    | (obtain ⟨h1, hv⟩ := h
       simp only [SourceProtocol.git.injEq] at h1
       obtain ⟨hf, hs⟩ := h1
       subst hv
       subst hf
       subst hs
       exact ⟨rfl, rfl⟩)

theorem parseSource_git {d : List Char} {frag : Option GitSourceFragment}
    {sg : Bool} (h : (parseSource d).protocol = SourceProtocol.git frag sg) :
    sg = containsSub (str "?signed") (parseSource d).url ∧
      ∃ uA, gitFragmentFromUrl uA = ((parseSource d).url, frag) := by
  have hc : (parseSource d).protocol = SourceProtocol.localPath ∨
      ∃ pA uA, ((parseSource d).protocol, (parseSource d).url) =
        protocolFromScheme pA uA := by
    unfold parseSource
    cases h1 : splitOnceSub (str "::") d with
    | none =>
      cases h2 : splitOnceSub (str "://") d with
      | none => left; simp [h2]
      | some pr0 =>
        obtain ⟨p0, rr⟩ := pr0
        cases h3 : splitOnceChar '+' p0 with
        | none =>
          right
          exact ⟨p0, d, by
            simp [h2, h3, apply_ite Source.protocol, apply_ite Source.url]⟩
        | some ab =>
          right
          exact ⟨ab.1, d.drop (ab.1.length + 1), by
            simp [h2, h3, apply_ite Source.protocol, apply_ite Source.url]⟩
    | some nu0 =>
      obtain ⟨n, u⟩ := nu0
      cases h2 : splitOnceSub (str "://") u with
      | none =>
        left
        simp [h2, apply_ite Source.protocol]
      | some pr0 =>
        obtain ⟨p0, rr⟩ := pr0
        cases h3 : splitOnceChar '+' p0 with
        | none =>
          right
          exact ⟨p0, u, by
            simp [h2, h3, apply_ite Source.protocol, apply_ite Source.url]⟩
        | some ab =>
          right
          exact ⟨ab.1, u.drop (ab.1.length + 1), by
            simp [h2, h3, apply_ite Source.protocol, apply_ite Source.url]⟩
  rcases hc with hl | ⟨pA, uA, hpu⟩
  · rw [h] at hl
    exact SourceProtocol.noConfusion hl
  · rw [h] at hpu
    obtain ⟨hg, hs⟩ := protocolFromScheme_git_inv hpu.symm
    exact ⟨hs, uA, hg⟩

/-- Claim C1, counterexample: the showcase entry with both a tag
fragment and a signed query does not produce the claimed signed Git
protocol: the signed flag comes out false, because the question mark
query was stripped from the stored url together with the fragment
before the signed test. -/
theorem git_tag_signed_lost :
    (parseSource (str "git+https://github.com/x/y.git#tag=v1?signed")).protocol
      ≠ SourceProtocol.git (some (.tag (str "v1"))) true := by decide

/-- Claim C1 amended: the showcase entry parses to the claimed tag
fragment, url and derived name, but with signed false; in general the
signed flag records the presence of the signed query in the
fragment-stripped final url (never in the original entry text), and
consequently every Git source whose fragment was recognised has signed
false. -/
theorem git_source_signed_from_final_url :
    parseSource (str "git+https://github.com/x/y.git#tag=v1?signed") =
      { name := str "y", url := str "https://github.com/x/y.git",
        protocol := SourceProtocol.git (some (.tag (str "v1"))) false } ∧
    (∀ d frag sg, (parseSource d).protocol = SourceProtocol.git frag sg →
      sg = containsSub (str "?signed") (parseSource d).url) ∧
    (∀ d f sg,
      (parseSource d).protocol = SourceProtocol.git (some f) sg →
      sg = false) := by
  refine ⟨by decide, ?_, ?_⟩
  · intro d frag sg h
    exact (parseSource_git h).1
  · intro d f sg h
    obtain ⟨hs, uA, hg⟩ := parseSource_git h
    rw [hs]
    exact gitFragmentFromUrl_signed_false hg

/-- Claim C1 witness: a fragment-free Git entry whose url keeps its
signed query parses with signed true, and the general rule applied at
it reads the flag off the final url. -/
theorem git_source_signed_from_final_url_witness :
    (parseSource (str "git+https://h/r?signed")).protocol =
        SourceProtocol.git none true ∧
      true =
        containsSub (str "?signed")
          (parseSource (str "git+https://h/r?signed")).url :=
  ⟨by decide,
    git_source_signed_from_final_url.2.1 (str "git+https://h/r?signed")
      none true (by decide)⟩

end PkgbuildRs
